import Mathlib

/-!
Formal model of the `QueryBuilder` utility of spring-data-dynamic-query-ui
(`toQueryString` / `fromQueryString` / criteria mutators), together with the
web-platform primitives the TypeScript code relies on: the WHATWG
`application/x-www-form-urlencoded` parser and serializer backing
`URLSearchParams`, the ECMAScript `decodeURIComponent` and `parseInt`
functions, `String.prototype.split("&&")`, and UTF-8 encoding/decoding.

JavaScript strings are modelled as lists of Unicode scalar values
(`List Char`), JavaScript numbers `page` / `pageSize` as `Option Int` with
`none` standing for `NaN` (the code only ever produces integers or `NaN`
for these fields), and a thrown exception as an `Option`-`none` result.
-/

namespace DQ

/-- JavaScript strings, modelled as lists of Unicode scalar values. -/
abbrev JStr := List Char

/-- Character list of a Lean string literal. -/
def jstr (s : String) : JStr := s.data

/-! ### Decimal digits: printing and parsing -/

/-- Decimal digits accumulator, least significant first. The first argument
is fuel (any bound on the digit count, e.g. `n` itself); fuel keeps the
recursion structural so that terms evaluate inside the kernel. -/
def natToDigitsRevA : Nat → Nat → List Nat
  | 0, n => [n % 10]
  | fuel + 1, n => if n < 10 then [n] else n % 10 :: natToDigitsRevA fuel (n / 10)

/-- Decimal digits of `n`, least significant first. -/
def natToDigitsRev (n : Nat) : List Nat := natToDigitsRevA n n

/-- Character for a decimal digit value. -/
def digitChar (d : Nat) : Char := Char.ofNat (48 + d)

/-- Decimal representation of a natural number, as produced by JavaScript
`Number.prototype.toString` for integers in the decimal-printing range. -/
def natRepr (n : Nat) : JStr := ((natToDigitsRev n).reverse).map digitChar

/-- Matches the regex character class `\d`. -/
def isDigitC (c : Char) : Bool := 48 ≤ c.toNat && c.toNat ≤ 57

/-- Accumulating decimal value of a digit string (most significant first). -/
def digitsValAux (acc : Nat) : List Char → Nat
  | [] => acc
  | c :: rest => digitsValAux (acc * 10 + (c.toNat - 48)) rest

/-- Decimal value of a digit string. -/
def digitsVal (s : JStr) : Nat := digitsValAux 0 s

/-! ### ECMAScript `parseInt(s, 10)` -/

/-- JavaScript whitespace characters skipped by `parseInt`. -/
def isJsSpace (c : Char) : Bool :=
  c.toNat = 32 || c.toNat = 9 || c.toNat = 10 || c.toNat = 11 || c.toNat = 12 ||
  c.toNat = 13 || c.toNat = 0xA0 || c.toNat = 0xFEFF || c.toNat = 0x2028 || c.toNat = 0x2029

/-- Digit-prefix part of `parseInt`: longest digit prefix, `NaN` (= `none`)
when there is none. -/
def parseIntCore (neg : Bool) (r : List Char) : Option Int :=
  let ds := r.takeWhile isDigitC
  if ds.isEmpty then none
  else some (if neg then -(digitsVal ds : Int) else (digitsVal ds : Int))

/-- Model of ECMAScript `parseInt(s, 10)`; `none` is `NaN`. Leading
whitespace is skipped, an optional single sign is consumed, then the longest
digit prefix is taken; no digits yields `NaN`. -/
def jsParseInt (s : JStr) : Option Int :=
  let t := s.dropWhile isJsSpace
  if t.head? = some '-' then parseIntCore true t.tail
  else if t.head? = some '+' then parseIntCore false t.tail
  else parseIntCore false t

/-- Decimal printing of a JavaScript number that is an integer or `NaN`
(`none` = `NaN`), as `Number.prototype.toString` produces. -/
def numToStr (v : Option Int) : JStr :=
  match v with
  | none => jstr "NaN"
  | some i => if i < 0 then '-' :: natRepr i.natAbs else natRepr i.toNat

/-! ### UTF-8 encoding and the WHATWG UTF-8 decoder (replacement mode)

The urlencoded parser behind `URLSearchParams` first UTF-8-encodes its
string input, and finally UTF-8-decodes each name and value emitting
U+FFFD for invalid subsequences (WHATWG "UTF-8 decode without BOM").
-/

/-- UTF-8 bytes of a Unicode scalar value. -/
def utf8EncodeChar (n : Nat) : List Nat :=
  if n < 0x80 then [n]
  else if n < 0x800 then [0xC0 + n / 64, 0x80 + n % 64]
  else if n < 0x10000 then [0xE0 + n / 4096, 0x80 + n / 64 % 64, 0x80 + n % 64]
  else [0xF0 + n / 0x40000, 0x80 + n / 4096 % 64, 0x80 + n / 64 % 64, 0x80 + n % 64]

/-- UTF-8 bytes of a string. -/
def utf8Encode (s : JStr) : List Nat := s.flatMap (fun c => utf8EncodeChar c.toNat)

/-- The replacement character U+FFFD. -/
def replChar : Char := Char.ofNat 0xFFFD

/-- WHATWG UTF-8 decoder in replacement mode, with structural fuel (one unit
per decoded character): invalid bytes or truncated sequences produce U+FFFD
and decoding resumes at the offending byte. The accepted ranges per lead
byte follow the WHATWG spec (which excludes overlong forms, surrogates and
values above U+10FFFF). -/
def utf8DecA : Nat → List Nat → List Char
  | _, [] => []
  | 0, _ :: _ => []
  | fuel + 1, b :: bs =>
    if b < 0x80 then Char.ofNat b :: utf8DecA fuel bs
    else if b < 0xC2 then replChar :: utf8DecA fuel bs
    else if b < 0xE0 then
      match bs with
      | [] => [replChar]
      | b2 :: bs2 =>
        if 0x80 ≤ b2 ∧ b2 ≤ 0xBF then
          Char.ofNat ((b - 0xC0) * 64 + (b2 - 0x80)) :: utf8DecA fuel bs2
        else replChar :: utf8DecA fuel bs
    else if b < 0xF0 then
      match bs with
      | [] => [replChar]
      | b2 :: bs2 =>
        if (if b = 0xE0 then 0xA0 else 0x80) ≤ b2 ∧ b2 ≤ (if b = 0xED then 0x9F else 0xBF) then
          match bs2 with
          | [] => [replChar]
          | b3 :: bs3 =>
            if 0x80 ≤ b3 ∧ b3 ≤ 0xBF then
              Char.ofNat ((b - 0xE0) * 4096 + (b2 - 0x80) * 64 + (b3 - 0x80)) :: utf8DecA fuel bs3
            else replChar :: utf8DecA fuel bs2
        else replChar :: utf8DecA fuel bs
    else if b < 0xF5 then
      match bs with
      | [] => [replChar]
      | b2 :: bs2 =>
        if (if b = 0xF0 then 0x90 else 0x80) ≤ b2 ∧ b2 ≤ (if b = 0xF4 then 0x8F else 0xBF) then
          match bs2 with
          | [] => [replChar]
          | b3 :: bs3 =>
            if 0x80 ≤ b3 ∧ b3 ≤ 0xBF then
              match bs3 with
              | [] => [replChar]
              | b4 :: bs4 =>
                if 0x80 ≤ b4 ∧ b4 ≤ 0xBF then
                  Char.ofNat
                      ((b - 0xF0) * 0x40000 + (b2 - 0x80) * 4096 + (b3 - 0x80) * 64 + (b4 - 0x80)) ::
                    utf8DecA fuel bs4
                else replChar :: utf8DecA fuel bs3
            else replChar :: utf8DecA fuel bs2
        else replChar :: utf8DecA fuel bs
    else replChar :: utf8DecA fuel bs

/-- WHATWG UTF-8 decode (replacement mode) of a byte sequence. -/
def utf8DecodeRepl (l : List Nat) : List Char := utf8DecA l.length l

/-- ASCII bytes, read back as characters. -/
def asciiToStr (bs : List Nat) : JStr := bs.map Char.ofNat

/-! ### Percent-encoding: the WHATWG urlencoded serializer and parser -/

/-- Value of an ASCII hex-digit byte. -/
def hexValB (b : Nat) : Option Nat :=
  if 48 ≤ b ∧ b ≤ 57 then some (b - 48)
  else if 65 ≤ b ∧ b ≤ 70 then some (b - 55)
  else if 97 ≤ b ∧ b ≤ 102 then some (b - 87)
  else none

/-- Uppercase hex-digit byte for a value below 16. -/
def hexUpperDigit (x : Nat) : Nat := if x < 10 then 48 + x else 55 + x

/-- The urlencoded parser turns `+` into a space before percent-decoding. -/
def plusToSpace (b : Nat) : Nat := if b = 0x2B then 0x20 else b

/-- Lenient percent-decoding (URLSearchParams parsing): a `%` followed by two
hex digits decodes to a byte, anything else is passed through unchanged.
Structural fuel, one unit per consumed chunk. -/
def pdlA : Nat → List Nat → List Nat
  | _, [] => []
  | 0, l => l
  | fuel + 1, b :: rest =>
    if b = 0x25 then
      match rest with
      | a :: c :: rest2 =>
        match hexValB a, hexValB c with
        | some x, some y => (16 * x + y) :: pdlA fuel rest2
        | _, _ => b :: pdlA fuel rest
      | _ => b :: pdlA fuel rest
    else b :: pdlA fuel rest

/-- Lenient percent-decoding of a byte sequence. -/
def percentDecodeLenient (l : List Nat) : List Nat := pdlA l.length l

/-- Bytes the urlencoded serializer leaves unescaped: ALPHA, DIGIT and
`*`, `-`, `.`, `_`. -/
def isUrlKeep (b : Nat) : Bool :=
  (48 ≤ b && b ≤ 57) || (65 ≤ b && b ≤ 90) || (97 ≤ b && b ≤ 122) ||
  b = 0x2A || b = 0x2D || b = 0x2E || b = 0x5F

/-- Urlencoded serialization of one byte: space becomes `+`, bytes in the
keep set stay, everything else becomes `%XX` with uppercase hex. -/
def serByte (b : Nat) : List Nat :=
  if b = 0x20 then [0x2B]
  else if isUrlKeep b then [b]
  else [0x25, hexUpperDigit (b / 16), hexUpperDigit (b % 16)]

/-- Urlencoded serialization of a string (UTF-8 encode, then escape bytes). -/
def serBytes (s : JStr) : List Nat := (utf8Encode s).flatMap serByte

/-- Split a byte sequence on a separator byte (every occurrence). -/
def splitOnByte (sep : Nat) : List Nat → List (List Nat)
  | [] => [[]]
  | b :: rest =>
    if b = sep then [] :: splitOnByte sep rest
    else
      match splitOnByte sep rest with
      | [] => [[b]]
      | h :: t => (b :: h) :: t

/-- Split a urlencoded segment at its first `=` byte into name and value;
with no `=` the whole segment is the name and the value is empty. -/
def splitFirstEq : List Nat → List Nat × List Nat
  | [] => ([], [])
  | b :: rest =>
    if b = 0x3D then ([], rest)
    else
      ((splitFirstEq rest).1.cons b, (splitFirstEq rest).2)

/-- Decode one urlencoded component (`+` to space, lenient percent-decode,
then UTF-8 decode in replacement mode). -/
def decodeComp (bs : List Nat) : JStr := utf8DecodeRepl (percentDecodeLenient (bs.map plusToSpace))

/-- The `URLSearchParams` string constructor strips one leading `?`. -/
def dropQuestion (s : JStr) : JStr :=
  if s.head? = some '?' then s.tail else s

/-- Model of `new URLSearchParams(s)`: the WHATWG urlencoded parser, as an
ordered list of name/value pairs. -/
def parseParams (s : JStr) : List (JStr × JStr) :=
  ((splitOnByte 0x26 (utf8Encode (dropQuestion s))).filter (fun seg => !seg.isEmpty)).map
    (fun seg => (decodeComp (splitFirstEq seg).1, decodeComp (splitFirstEq seg).2))

/-- Urlencoded serialization of one name/value pair. -/
def serPair (p : JStr × JStr) : List Nat := serBytes p.1 ++ 0x3D :: serBytes p.2

/-- Interleave a separator byte between segments. -/
def joinSepByte (sep : Nat) : List (List Nat) → List Nat
  | [] => []
  | [x] => x
  | x :: xs => x ++ sep :: joinSepByte sep xs

/-- Model of `URLSearchParams.prototype.toString`: the WHATWG urlencoded
serializer over the pair list. -/
def serializeParams (ps : List (JStr × JStr)) : JStr :=
  asciiToStr (joinSepByte 0x26 (ps.map serPair))

/-! ### ECMAScript `decodeURIComponent` and `String.prototype.split("&&")` -/

/-- Hex value of a hex-digit character. -/
def hexValC (c : Char) : Option Nat := hexValB c.toNat

/-- Parse one escape cluster of `decodeURIComponent` (the input starts just
after a `%`): two hex digits, and for lead bytes of multi-byte UTF-8
sequences the required further `%XX` continuation escapes. Returns the
decoded character and the remaining input, or `none` for a `URIError`
(missing or non-hex digits, bad lead or continuation byte, overlong form,
surrogate, or value above U+10FFFF; ranges as in the WHATWG UTF-8 decoder). -/
def readEsc : JStr → Option (Char × JStr)
  | h1 :: h2 :: rest2 =>
    match hexValC h1, hexValC h2 with
    | some x, some y =>
      if 16 * x + y < 0x80 then some (Char.ofNat (16 * x + y), rest2)
      else if 16 * x + y < 0xC2 then none
      else if 16 * x + y < 0xE0 then
        match rest2 with
        | '%' :: h3 :: h4 :: rest3 =>
          match hexValC h3, hexValC h4 with
          | some x3, some y3 =>
            if 0x80 ≤ 16 * x3 + y3 ∧ 16 * x3 + y3 ≤ 0xBF then
              some (Char.ofNat ((16 * x + y - 0xC0) * 64 + (16 * x3 + y3 - 0x80)), rest3)
            else none
          | _, _ => none
        | _ => none
      else if 16 * x + y < 0xF0 then
        match rest2 with
        | '%' :: h3 :: h4 :: '%' :: h5 :: h6 :: rest3 =>
          match hexValC h3, hexValC h4, hexValC h5, hexValC h6 with
          | some x3, some y3, some x5, some y5 =>
            if ((if 16 * x + y = 0xE0 then 0xA0 else 0x80) ≤ 16 * x3 + y3 ∧
                  16 * x3 + y3 ≤ (if 16 * x + y = 0xED then 0x9F else 0xBF)) ∧
                (0x80 ≤ 16 * x5 + y5 ∧ 16 * x5 + y5 ≤ 0xBF) then
              some (Char.ofNat ((16 * x + y - 0xE0) * 4096 + (16 * x3 + y3 - 0x80) * 64 +
                (16 * x5 + y5 - 0x80)), rest3)
            else none
          | _, _, _, _ => none
        | _ => none
      else if 16 * x + y < 0xF5 then
        match rest2 with
        | '%' :: h3 :: h4 :: '%' :: h5 :: h6 :: '%' :: h7 :: h8 :: rest3 =>
          match hexValC h3, hexValC h4, hexValC h5, hexValC h6, hexValC h7, hexValC h8 with
          | some x3, some y3, some x5, some y5, some x7, some y7 =>
            if ((if 16 * x + y = 0xF0 then 0x90 else 0x80) ≤ 16 * x3 + y3 ∧
                  16 * x3 + y3 ≤ (if 16 * x + y = 0xF4 then 0x8F else 0xBF)) ∧
                (0x80 ≤ 16 * x5 + y5 ∧ 16 * x5 + y5 ≤ 0xBF) ∧
                (0x80 ≤ 16 * x7 + y7 ∧ 16 * x7 + y7 ≤ 0xBF) then
              some (Char.ofNat ((16 * x + y - 0xF0) * 0x40000 + (16 * x3 + y3 - 0x80) * 4096 +
                (16 * x5 + y5 - 0x80) * 64 + (16 * x7 + y7 - 0x80)), rest3)
            else none
          | _, _, _, _, _, _ => none
        | _ => none
      else none
    | _, _ => none
  | _ => none

/-- ECMAScript `Decode` with an empty reserved set (`decodeURIComponent`),
with structural fuel (one unit per consumed escape sequence or literal
character). `none` models a thrown `URIError`. -/
def decURIA : Nat → JStr → Option JStr
  | _, [] => some []
  | 0, _ :: _ => none
  | fuel + 1, c :: rest =>
    if c = '%' then
      match readEsc rest with
      | none => none
      | some p => (decURIA fuel p.2).map (fun t => p.1 :: t)
    else (decURIA fuel rest).map (fun t => c :: t)

/-- Model of `decodeURIComponent`; `none` models a thrown `URIError`. -/
def decodeURIComponent (s : JStr) : Option JStr := decURIA s.length s

/-- `String.prototype.split("&&")`, leftmost-first, with structural fuel
(one unit per consumed character or separator occurrence). -/
def sAAA : Nat → JStr → List JStr
  | _, [] => [[]]
  | 0, l => [l]
  | fuel + 1, c :: rest =>
    if c = '&' ∧ rest.head? = some '&' then [] :: sAAA fuel rest.tail
    else
      match sAAA fuel rest with
      | [] => [[c]]
      | h :: t => (c :: h) :: t

/-- `value.split("&&")` on a JavaScript string. -/
def splitAmpAmp (s : JStr) : List JStr := sAAA s.length s

/-! ### The data model (`field.types.ts`) and the `QueryBuilder` utility

`Criteria` and `DynamicQuery` model the TypeScript interfaces. The optional
array fields are lists of `Option JStr`: a `none` element models a JavaScript
array hole (which `forEach` skips and sparse decoding can create); TypeScript
user code only builds hole-free arrays. `page` / `pageSize` are
`Option (Option Int)`: the outer `Option` is field absence (`undefined`), the
inner `none` is `NaN`. -/

/-- One criterion (`interface Criteria`). The `operation` is the string
value of the `CriteriaOperation` enum member (the decoder casts any string
unchecked). -/
structure Criteria where
  key : JStr
  operation : JStr
  values : List JStr
deriving DecidableEq, Repr

/-- The query aggregate (`interface DynamicQuery`). -/
structure DynamicQuery where
  criteria : List Criteria
  select : Option (List (Option JStr)) := none
  selectAs : Option (List (Option JStr)) := none
  orderBy : Option (List (Option JStr)) := none
  orderByDirection : Option (List (Option JStr)) := none
  page : Option (Option Int) := none
  pageSize : Option (Option Int) := none
deriving DecidableEq, Repr

/-- `const KEY_FIELD = "key"`. -/
def preKey : JStr := jstr "key"

/-- `const OPERATION_FIELD = "operation"`. -/
def preOperation : JStr := jstr "operation"

/-- `const VALUES_FIELD = "values"`. -/
def preValues : JStr := jstr "values"

/-- Pair each list element with its position (`Array.prototype.forEach`
callback index), starting at `i`. -/
def idxFrom (i : Nat) : List A → List (Nat × A)
  | [] => []
  | a :: rest => (i, a) :: idxFrom (i + 1) rest

/-- Parameters appended for the criteria array by `toQueryString`: for each
criterion at position `idx`, `key{idx}`, `operation{idx}`, then one
`values{idx}` pair per element of `values` (holes skipped by `forEach`;
`values` is hole-free by its TypeScript type). -/
def critParams (cs : List Criteria) : List (JStr × JStr) :=
  (idxFrom 0 cs).flatMap (fun p =>
    (preKey ++ natRepr p.1, p.2.key) :: (preOperation ++ natRepr p.1, p.2.operation) ::
      p.2.values.map (fun v => (preValues ++ natRepr p.1, v)))

/-- Parameters appended for one optional array field: nothing when the field
is absent or the array empty, else one `pre{idx}` pair per non-hole element
at its original index (`forEach` skips holes but keeps indices). -/
def optArrParams (pre : JStr) (o : Option (List (Option JStr))) : List (JStr × JStr) :=
  match o with
  | none => []
  | some l =>
    if 0 < l.length then
      (idxFrom 0 l).filterMap (fun p => p.2.map (fun v => (pre ++ natRepr p.1, v)))
    else []

/-- Parameters appended for `page` / `pageSize` when not `undefined`. -/
def numParam (name : JStr) (o : Option (Option Int)) : List (JStr × JStr) :=
  match o with
  | none => []
  | some v => [(name, numToStr v)]

/-- The ordered name/value pairs `toQueryString` appends to its
`URLSearchParams`. -/
def toQueryParams (q : DynamicQuery) : List (JStr × JStr) :=
  critParams q.criteria
    ++ optArrParams (jstr "select") q.select
    ++ optArrParams (jstr "selectAs") q.selectAs
    ++ optArrParams (jstr "orderBy") q.orderBy
    ++ optArrParams (jstr "orderByDirection") q.orderByDirection
    ++ numParam (jstr "page") q.page
    ++ numParam (jstr "pageSize") q.pageSize

/-- `QueryBuilder.toQueryString`: append all parameters, then serialize via
`URLSearchParams.prototype.toString`. -/
def toQueryString (q : DynamicQuery) : JStr := serializeParams (toQueryParams q)

/-- Matches `name.match(/^pre(\d+)$/)` followed by `parseInt` of the digits:
the numeric suffix after an exact prefix, `none` when the shape differs. -/
def stripLead : JStr → JStr → Option JStr
  | [], s => some s
  | _ :: _, [] => none
  | p :: ps, c :: cs => if c = p then stripLead ps cs else none

/-- Numeric criterion/array index extracted from a parameter name. -/
def matchIdx (pre name : JStr) : Option Nat :=
  match stripLead pre name with
  | none => none
  | some rest => if !rest.isEmpty && rest.all isDigitC then some (digitsVal rest) else none

/-- Partially assembled criterion (`Partial<Criteria>` in the decoder). -/
structure PartialCrit where
  key : Option JStr := none
  operation : Option JStr := none
  values : Option (List JStr) := none
deriving DecidableEq, Repr

/-- Insertion-ordered map update modelling the decoder pattern
`if (!criteriaMap.has(idx)) criteriaMap.set(idx, init)` followed by a
mutation of `criteriaMap.get(idx)`: an absent key is appended at the end
(JavaScript `Map` preserves insertion order), a present key is updated in
place. -/
def mapUpdate (m : List (Nat × PartialCrit)) (i : Nat) (f : PartialCrit → PartialCrit)
    (init : PartialCrit) : List (Nat × PartialCrit) :=
  match m with
  | [] => [(i, f init)]
  | (j, pc) :: rest => if j = i then (j, f pc) :: rest else (j, pc) :: mapUpdate rest i f init

/-- Decoder accumulator: the criteria map plus the four sparse arrays. -/
structure DecState where
  cmap : List (Nat × PartialCrit)
  select : List (Option JStr)
  selectAs : List (Option JStr)
  orderBy : List (Option JStr)
  orderByDirection : List (Option JStr)
deriving DecidableEq, Repr

/-- JavaScript sparse array assignment `arr[i] = v`: extends the array with
holes when `i` is past the end. -/
def setSparse (l : List (Option JStr)) (i : Nat) (v : JStr) : List (Option JStr) :=
  if i < l.length then l.set i (some v)
  else l ++ List.replicate (i - l.length) none ++ [some v]

/-- The `key{i}` / `operation{i}` / `values{i}` if-else chain of the decoder
callback. A `values{i}` parameter is `decodeURIComponent`-ed (which can
throw, aborting the whole decode: `none`) and split on `"&&"`, and the
pieces are appended to the entry of index `i`. -/
def critStep (st : DecState) (name value : JStr) : Option DecState :=
  match matchIdx preKey name with
  | some i =>
    some { st with cmap := mapUpdate st.cmap i (fun pc => { pc with key := some value }) {} }
  | none =>
    match matchIdx preOperation name with
    | some i =>
      some { st with
        cmap := mapUpdate st.cmap i (fun pc => { pc with operation := some value }) {} }
    | none =>
      match matchIdx preValues name with
      | some i =>
        (decodeURIComponent value).map (fun dv =>
          { st with
            cmap := mapUpdate st.cmap i
              (fun pc => { pc with values := some (pc.values.getD [] ++ splitAmpAmp dv) })
              { values := some [] } })
      | none => some st

/-- The four independent `select{i}` / `selectAs{i}` / `orderBy{i}` /
`orderByDirection{i}` checks of the decoder callback. -/
def applySelects (st : DecState) (name value : JStr) : DecState :=
  let st1 := match matchIdx (jstr "select") name with
    | some i => { st with select := setSparse st.select i value }
    | none => st
  let st2 := match matchIdx (jstr "selectAs") name with
    | some i => { st1 with selectAs := setSparse st1.selectAs i value }
    | none => st1
  let st3 := match matchIdx (jstr "orderBy") name with
    | some i => { st2 with orderBy := setSparse st2.orderBy i value }
    | none => st2
  match matchIdx (jstr "orderByDirection") name with
  | some i => { st3 with orderByDirection := setSparse st3.orderByDirection i value }
  | none => st3

/-- One `params.forEach` callback invocation of `fromQueryString`. -/
def decodeStep (st : DecState) (name value : JStr) : Option DecState :=
  (critStep st name value).map (fun st1 => applySelects st1 name value)

/-- The empty decoder state. -/
def initState : DecState := ⟨[], [], [], [], []⟩

/-- Materialization of one criteria-map entry: produced only when `key` and
`operation` are present and truthy (non-empty) and the `values` array is
present (`criteriaObj.key && criteriaObj.operation && criteriaObj.values`). -/
def matureOne (pc : PartialCrit) : Option Criteria :=
  match pc.key, pc.operation, pc.values with
  | some k, some op, some vs =>
    if !k.isEmpty && !op.isEmpty then some (Criteria.mk k op vs) else none
  | _, _, _ => none

/-- Conversion of the criteria map to the output array, in map iteration
(= insertion) order. -/
def maturedCriteria (m : List (Nat × PartialCrit)) : List Criteria :=
  m.filterMap (fun p => matureOne p.2)

/-- `params.get(name)`: the first value under `name`, if any. -/
def listFind (params : List (JStr × JStr)) (name : JStr) : Option JStr :=
  (params.find? (fun p => p.1 == name)).map (fun p => p.2)

/-- The decoder fold over all parsed parameters. -/
def decodeFold (params : List (JStr × JStr)) : Option DecState :=
  params.foldlM (fun st p => decodeStep st p.1 p.2) initState

/-- `QueryBuilder.fromQueryString`: parse with `URLSearchParams`, fold the
callback over every pair, then assemble the `DynamicQuery`. `none` models a
thrown exception (only `decodeURIComponent` can throw). -/
def fromQueryString (s : JStr) : Option DynamicQuery :=
  (decodeFold (parseParams s)).map (fun st =>
    { criteria := maturedCriteria st.cmap
      select := if 0 < st.select.length then some st.select else none
      selectAs := if 0 < st.selectAs.length then some st.selectAs else none
      orderBy := if 0 < st.orderBy.length then some st.orderBy else none
      orderByDirection :=
        if 0 < st.orderByDirection.length then some st.orderByDirection else none
      page := (listFind (parseParams s) (jstr "page")).map jsParseInt
      pageSize := (listFind (parseParams s) (jstr "pageSize")).map jsParseInt })

/-- The default query of the constructor and of `clear()`:
`{ criteria: [], page: 0, pageSize: 20 }`. -/
def defaultQuery : DynamicQuery :=
  { criteria := [], page := some (some 0), pageSize := some (some 20) }

/-- `new QueryBuilder(initialQuery?)`: `initialQuery || default` (objects
are truthy, so any provided query is taken as is). -/
def newQueryBuilder (initialQuery : Option DynamicQuery) : DynamicQuery :=
  match initialQuery with
  | some q => q
  | none => defaultQuery

/-- `QueryBuilder.clear()`: reset to the default query (no parameters). -/
def clear (_q : DynamicQuery) : DynamicQuery := defaultQuery

/-- `QueryBuilder.addCriteria`: push one criterion. -/
def addCriteria (q : DynamicQuery) (key operation : JStr) (values : List JStr) : DynamicQuery :=
  { q with criteria := q.criteria ++ [Criteria.mk key operation values] }

/-- JavaScript truthiness of the optional `operation` argument: `undefined`
and the empty string are falsy. -/
def jsTruthyOpt (o : Option JStr) : Bool :=
  match o with
  | none => false
  | some s => !s.isEmpty

/-- `QueryBuilder.removeCriteria(key, operation?)`: keep criteria with
`c.key !== key || (operation && c.operation !== operation)`. -/
def removeCriteria (q : DynamicQuery) (key : JStr) (operation : Option JStr) : DynamicQuery :=
  { q with criteria := q.criteria.filter (fun c =>
      (c.key != key) || (jsTruthyOpt operation && (c.operation != operation.getD []))) }

/-- `QueryBuilder.upsertCriteria`: remove by exact key and operation, then
append the new criterion. -/
def upsertCriteria (q : DynamicQuery) (key operation : JStr) (values : List JStr) :
    DynamicQuery :=
  addCriteria (removeCriteria q key (some operation)) key operation values

/-! ### Decoder fold lemmas -/

/-- Criteria parameters with positions starting at `i0`. -/
def critParamsFrom (i0 : Nat) (cs : List Criteria) : List (JStr × JStr) :=
  (idxFrom i0 cs).flatMap (fun p =>
    (preKey ++ natRepr p.1, p.2.key) :: (preOperation ++ natRepr p.1, p.2.operation) ::
      p.2.values.map (fun v => (preValues ++ natRepr p.1, v)))

/-- The fully populated map entry the decoder builds for one criterion. -/
def builtEntry (c : Criteria) : PartialCrit :=
  { key := some c.key, operation := some c.operation, values := some c.values }

/-- One decoder step, as folded. -/
def stepFn (st : DecState) (p : JStr × JStr) : Option DecState := decodeStep st p.1 p.2

/-- Values saneness for the round trip: a value that survives the double
decode unchanged (no percent sign, no `"&&"` substring). -/
def ValueSane (v : JStr) : Prop := (∀ ch ∈ v, ch ≠ '%') ∧ ¬ ['&', '&'] <:+: v

/-- Criterion saneness hypotheses of the amended round trip. -/
def CritSane (c : Criteria) : Prop :=
  c.key ≠ [] ∧ c.operation ≠ [] ∧ c.values ≠ [] ∧ ∀ v ∈ c.values, ValueSane v

/-- Optional-array parameters with positions starting at `i0`. -/
def optArrFrom (pre : JStr) (i0 : Nat) (l : List (Option JStr)) : List (JStr × JStr) :=
  (idxFrom i0 l).filterMap (fun p => p.2.map (fun v => (pre ++ natRepr p.1, v)))

/-- Hole-freeness of the optional arrays: what the TypeScript types
(`string[]`) guarantee for user-built queries. -/
def NoHoles (q : DynamicQuery) : Prop :=
  (∀ l, q.select = some l → ∀ e ∈ l, e ≠ none) ∧
  (∀ l, q.selectAs = some l → ∀ e ∈ l, e ≠ none) ∧
  (∀ l, q.orderBy = some l → ∀ e ∈ l, e ≠ none) ∧
  (∀ l, q.orderByDirection = some l → ∀ e ∈ l, e ≠ none)

/-- The round-trip normalization of the claim: an empty optional array is
indistinguishable from an absent one after decode. -/
def normalizeEmpties (q : DynamicQuery) : DynamicQuery :=
  { q with
    select := match q.select with | some [] => none | o => o
    selectAs := match q.selectAs with | some [] => none | o => o
    orderBy := match q.orderBy with | some [] => none | o => o
    orderByDirection := match q.orderByDirection with | some [] => none | o => o }

def ValuesNE (pc : PartialCrit) : Prop := ∀ vs, pc.values = some vs → vs ≠ []

/-- The criterion index a parameter name contributes to the criteria map,
following the `key{i}` / `operation{i}` / `values{i}` else-chain. -/
def critIdxOf (n : JStr) : Option Nat :=
  match matchIdx preKey n with
  | some i => some i
  | none =>
    match matchIdx preOperation n with
    | some i => some i
    | none => matchIdx preValues n

/-- Append an index unless already present (first occurrence wins). -/
def dedupAppend (acc : List Nat) (i : Nat) : List Nat :=
  if acc.contains i then acc else acc ++ [i]

/-- Indices in order of first occurrence (JavaScript `Map` insertion order). -/
def firstOccurrences (l : List Nat) : List Nat := l.foldl dedupAppend []

/-- Spec-side emission order for the criteria block, following the claim's
wording: for each criterion in sequence, `key{i}`, then `operation{i}`, then
one repeated `values{i}` pair per value, all before the next criterion's. -/
def specCritPairs : List Criteria → Nat → List (JStr × JStr)
  | [], _ => []
  | c :: rest, i =>
    (jstr "key" ++ natRepr i, c.key) :: (jstr "operation" ++ natRepr i, c.operation) ::
      (c.values.map (fun v => (jstr "values" ++ natRepr i, v)) ++ specCritPairs rest (i + 1))

/-- Spec-side emission for one optional array: all `pre{i}` pairs in index
order (array holes contribute nothing). -/
def specArrPairs (pre : JStr) : Nat → List (Option JStr) → List (JStr × JStr)
  | _, [] => []
  | i, none :: rest => specArrPairs pre (i + 1) rest
  | i, some v :: rest => (pre ++ natRepr i, v) :: specArrPairs pre (i + 1) rest

/-- Spec-side treatment of an optional array field: an absent or empty
field is omitted entirely. -/
def specOptArr (pre : JStr) (o : Option (List (Option JStr))) : List (JStr × JStr) :=
  match o with
  | none => []
  | some l => if l.isEmpty then [] else specArrPairs pre 0 l

/-- Spec-side treatment of `page` / `pageSize`: emitted only if defined. -/
def specNum (name : JStr) (o : Option (Option Int)) : List (JStr × JStr) :=
  match o with
  | none => []
  | some v => [(name, numToStr v)]

/-- The claim's fixed overall emission order: criteria blocks, then
`select`, `selectAs`, `orderBy`, `orderByDirection`, then `page`, then
`pageSize`. -/
def specEmission (q : DynamicQuery) : List (JStr × JStr) :=
  specCritPairs q.criteria 0
    ++ specOptArr (jstr "select") q.select
    ++ specOptArr (jstr "selectAs") q.selectAs
    ++ specOptArr (jstr "orderBy") q.orderBy
    ++ specOptArr (jstr "orderByDirection") q.orderByDirection
    ++ specNum (jstr "page") q.page
    ++ specNum (jstr "pageSize") q.pageSize

/-! ### Theorems -/

theorem toNat_ofNat_valid {n : Nat} (h : n.isValidChar) : (Char.ofNat n).toNat = n := by
  simp [Char.ofNat, h, Char.ofNatAux, Char.toNat, UInt32.toNat]

theorem digitChar_toNat {d : Nat} (h : d < 10) : (digitChar d).toNat = 48 + d := by
  have : (48 + d).isValidChar := Or.inl (by omega)
  simp [digitChar, toNat_ofNat_valid this]

theorem digitsValAux_append (acc : Nat) (l : List Char) (c : Char) :
    digitsValAux acc (l ++ [c]) = digitsValAux acc l * 10 + (c.toNat - 48) := by
  induction l generalizing acc with
  | nil => rfl
  | cons x xs ih =>
    rw [List.cons_append]
    show digitsValAux (acc * 10 + (x.toNat - 48)) (xs ++ [c]) = _
    rw [ih]
    rfl

theorem natToDigitsRevA_lt (fuel : Nat) : ∀ n, ∀ d ∈ natToDigitsRevA fuel n, d < 10 := by
  induction fuel with
  | zero => intro n d hd; simp [natToDigitsRevA] at hd; omega
  | succ fuel ih =>
    intro n d hd
    rw [natToDigitsRevA] at hd
    by_cases h : n < 10
    · rw [if_pos h] at hd; simp at hd; omega
    · rw [if_neg h] at hd
      simp at hd
      rcases hd with h' | h'
      · omega
      · exact ih (n / 10) d h'

theorem natToDigitsRev_lt (n : Nat) : ∀ d ∈ natToDigitsRev n, d < 10 :=
  natToDigitsRevA_lt n n

theorem digitsVal_singleton (c : Char) : digitsVal [c] = 0 * 10 + (c.toNat - 48) := rfl

theorem digitsVal_natToDigitsRevA (fuel : Nat) :
    ∀ n, n ≤ fuel → digitsVal (((natToDigitsRevA fuel n).reverse).map digitChar) = n := by
  induction fuel with
  | zero =>
    intro n hn
    have : n = 0 := by omega
    subst this
    decide
  | succ fuel ih =>
    intro n hn
    rw [natToDigitsRevA]
    by_cases h : n < 10
    · rw [if_pos h]
      simp only [List.reverse_cons, List.reverse_nil, List.nil_append, List.map_cons,
        List.map_nil]
      rw [digitsVal_singleton, digitChar_toNat h]
      omega
    · rw [if_neg h]
      have hrec := ih (n / 10) (by omega)
      simp only [List.reverse_cons, List.map_append, List.map_cons, List.map_nil, digitsVal]
      rw [digitsValAux_append]
      have hmod : n % 10 < 10 := by omega
      rw [digitChar_toNat hmod]
      rw [digitsVal] at hrec
      rw [hrec]
      omega

theorem digitsVal_natRepr (n : Nat) : digitsVal (natRepr n) = n :=
  digitsVal_natToDigitsRevA n n le_rfl

theorem natRepr_ne_nil (n : Nat) : natRepr n ≠ [] := by
  rw [natRepr, natToDigitsRev]
  cases n with
  | zero => decide
  | succ m =>
    rw [natToDigitsRevA]
    by_cases h : m + 1 < 10
    · rw [if_pos h]; simp
    · rw [if_neg h]; simp

theorem natRepr_all_digits (n : Nat) : ∀ c ∈ natRepr n, isDigitC c = true := by
  intro c hc
  rw [natRepr] at hc
  simp at hc
  obtain ⟨d, hd, rfl⟩ := hc
  have h10 := natToDigitsRev_lt n d hd
  simp [isDigitC, digitChar_toNat h10]
  omega

theorem takeWhile_digits_natRepr (n : Nat) :
    (natRepr n).takeWhile isDigitC = natRepr n :=
  List.takeWhile_eq_self_iff.mpr (natRepr_all_digits n)

theorem jsParseInt_natRepr (n : Nat) : jsParseInt (natRepr n) = some (n : Int) := by
  obtain ⟨c, r, hcr⟩ : ∃ c r, natRepr n = c :: r := by
    cases h : natRepr n with
    | nil => exact absurd h (natRepr_ne_nil n)
    | cons c r => exact ⟨c, r, rfl⟩
  have hdig : isDigitC c = true := natRepr_all_digits n c (by rw [hcr]; simp)
  have hdig' : 48 ≤ c.toNat ∧ c.toNat ≤ 57 := by simpa [isDigitC] using hdig
  have hspace : isJsSpace c = false := by
    simp [isJsSpace]
    omega
  have hminus : c ≠ '-' := by
    intro h
    rw [h] at hdig'
    exact absurd hdig' (by decide)
  have hplus : c ≠ '+' := by
    intro h
    rw [h] at hdig'
    exact absurd hdig' (by decide)
  have hdrop : (natRepr n).dropWhile isJsSpace = c :: r := by
    rw [hcr, List.dropWhile_cons, if_neg (by simp [hspace])]
  simp only [jsParseInt, hdrop, List.head?, List.tail]
  rw [if_neg (by simp [hminus]), if_neg (by simp [hplus]), parseIntCore]
  rw [← hcr, takeWhile_digits_natRepr]
  simp [natRepr_ne_nil n, digitsVal_natRepr]

/-- Printing then re-parsing an integer-or-NaN `page` / `pageSize` value is
the identity: `parseInt` recovers the integer, and `parseInt("NaN")` is `NaN`. -/
theorem jsParseInt_numToStr (v : Option Int) : jsParseInt (numToStr v) = v := by
  match v with
  | none => decide
  | some i =>
    by_cases hneg : i < 0
    · have hrepr : numToStr (some i) = '-' :: natRepr i.natAbs := by simp [numToStr, hneg]
      have hdrop : ('-' :: natRepr i.natAbs).dropWhile isJsSpace = '-' :: natRepr i.natAbs := by
        rw [List.dropWhile_cons, if_neg (by decide)]
      rw [hrepr]
      simp only [jsParseInt, hdrop, List.head?, List.tail]
      rw [if_pos trivial, parseIntCore]
      rw [takeWhile_digits_natRepr]
      simp [natRepr_ne_nil, digitsVal_natRepr]
      rw [abs_of_neg hneg]
      ring
    · have hrepr : numToStr (some i) = natRepr i.toNat := by simp [numToStr, hneg]
      rw [hrepr, jsParseInt_natRepr]
      congr 1
      omega

theorem char_toNat_valid (c : Char) : c.toNat < 55296 ∨ 57343 < c.toNat ∧ c.toNat < 1114112 :=
  c.valid

theorem utf8DecA_cons (f b : Nat) (bs : List Nat) :
    utf8DecA (f + 1) (b :: bs) =
      if b < 0x80 then Char.ofNat b :: utf8DecA f bs
      else if b < 0xC2 then replChar :: utf8DecA f bs
      else if b < 0xE0 then
        match bs with
        | [] => [replChar]
        | b2 :: bs2 =>
          if 0x80 ≤ b2 ∧ b2 ≤ 0xBF then
            Char.ofNat ((b - 0xC0) * 64 + (b2 - 0x80)) :: utf8DecA f bs2
          else replChar :: utf8DecA f bs
      else if b < 0xF0 then
        match bs with
        | [] => [replChar]
        | b2 :: bs2 =>
          if (if b = 0xE0 then 0xA0 else 0x80) ≤ b2 ∧ b2 ≤ (if b = 0xED then 0x9F else 0xBF) then
            match bs2 with
            | [] => [replChar]
            | b3 :: bs3 =>
              if 0x80 ≤ b3 ∧ b3 ≤ 0xBF then
                Char.ofNat ((b - 0xE0) * 4096 + (b2 - 0x80) * 64 + (b3 - 0x80)) :: utf8DecA f bs3
              else replChar :: utf8DecA f bs2
          else replChar :: utf8DecA f bs
      else if b < 0xF5 then
        match bs with
        | [] => [replChar]
        | b2 :: bs2 =>
          if (if b = 0xF0 then 0x90 else 0x80) ≤ b2 ∧ b2 ≤ (if b = 0xF4 then 0x8F else 0xBF) then
            match bs2 with
            | [] => [replChar]
            | b3 :: bs3 =>
              if 0x80 ≤ b3 ∧ b3 ≤ 0xBF then
                match bs3 with
                | [] => [replChar]
                | b4 :: bs4 =>
                  if 0x80 ≤ b4 ∧ b4 ≤ 0xBF then
                    Char.ofNat
                        ((b - 0xF0) * 0x40000 + (b2 - 0x80) * 4096 + (b3 - 0x80) * 64 +
                          (b4 - 0x80)) ::
                      utf8DecA f bs4
                  else replChar :: utf8DecA f bs3
              else replChar :: utf8DecA f bs2
          else replChar :: utf8DecA f bs
      else replChar :: utf8DecA f bs := rfl

theorem utf8DecA_one (f b : Nat) (bs : List Nat) (h : b < 0x80) :
    utf8DecA (f + 1) (b :: bs) = Char.ofNat b :: utf8DecA f bs := by
  rw [utf8DecA_cons, if_pos h]

theorem utf8DecA_two (f b b2 : Nat) (bs : List Nat) (h1 : 0xC2 ≤ b) (h2 : b < 0xE0)
    (h3 : 0x80 ≤ b2) (h4 : b2 ≤ 0xBF) :
    utf8DecA (f + 1) (b :: b2 :: bs) =
      Char.ofNat ((b - 0xC0) * 64 + (b2 - 0x80)) :: utf8DecA f bs := by
  rw [utf8DecA_cons, if_neg (by omega), if_neg (by omega), if_pos (by omega)]
  show (if 0x80 ≤ b2 ∧ b2 ≤ 0xBF then
      Char.ofNat ((b - 0xC0) * 64 + (b2 - 0x80)) :: utf8DecA f bs
    else replChar :: utf8DecA f (b2 :: bs)) = _
  rw [if_pos ⟨h3, h4⟩]

theorem utf8DecA_three (f b b2 b3 : Nat) (bs : List Nat) (h1 : 0xE0 ≤ b) (h2 : b < 0xF0)
    (h3 : (if b = 0xE0 then 0xA0 else 0x80) ≤ b2) (h4 : b2 ≤ (if b = 0xED then 0x9F else 0xBF))
    (h5 : 0x80 ≤ b3) (h6 : b3 ≤ 0xBF) :
    utf8DecA (f + 1) (b :: b2 :: b3 :: bs) =
      Char.ofNat ((b - 0xE0) * 4096 + (b2 - 0x80) * 64 + (b3 - 0x80)) :: utf8DecA f bs := by
  have hb2 : b2 ≤ 0xBF := by
    by_cases he : b = 0xED
    · rw [if_pos he] at h4; omega
    · rw [if_neg he] at h4; omega
  rw [utf8DecA_cons, if_neg (by omega), if_neg (by omega), if_neg (by omega), if_pos (by omega)]
  show (if (if b = 0xE0 then 0xA0 else 0x80) ≤ b2 ∧ b2 ≤ (if b = 0xED then 0x9F else 0xBF) then
      match b3 :: bs with
      | [] => [replChar]
      | b3 :: bs3 =>
        if 0x80 ≤ b3 ∧ b3 ≤ 0xBF then
          Char.ofNat ((b - 0xE0) * 4096 + (b2 - 0x80) * 64 + (b3 - 0x80)) :: utf8DecA f bs3
        else replChar :: utf8DecA f (b3 :: bs)
    else replChar :: utf8DecA f (b2 :: b3 :: bs)) = _
  rw [if_pos ⟨h3, h4⟩]
  show (if 0x80 ≤ b3 ∧ b3 ≤ 0xBF then
      Char.ofNat ((b - 0xE0) * 4096 + (b2 - 0x80) * 64 + (b3 - 0x80)) :: utf8DecA f bs
    else replChar :: utf8DecA f (b3 :: bs)) = _
  rw [if_pos ⟨h5, h6⟩]

theorem utf8DecA_four (f b b2 b3 b4 : Nat) (bs : List Nat) (h1 : 0xF0 ≤ b) (h2 : b < 0xF5)
    (h3 : (if b = 0xF0 then 0x90 else 0x80) ≤ b2) (h4 : b2 ≤ (if b = 0xF4 then 0x8F else 0xBF))
    (h5 : 0x80 ≤ b3) (h6 : b3 ≤ 0xBF) (h7 : 0x80 ≤ b4) (h8 : b4 ≤ 0xBF) :
    utf8DecA (f + 1) (b :: b2 :: b3 :: b4 :: bs) =
      Char.ofNat ((b - 0xF0) * 0x40000 + (b2 - 0x80) * 4096 + (b3 - 0x80) * 64 + (b4 - 0x80)) ::
        utf8DecA f bs := by
  have hb2 : b2 ≤ 0xBF := by
    by_cases he : b = 0xF4
    · rw [if_pos he] at h4; omega
    · rw [if_neg he] at h4; omega
  rw [utf8DecA_cons, if_neg (by omega), if_neg (by omega), if_neg (by omega), if_neg (by omega),
    if_pos (by omega)]
  show (if (if b = 0xF0 then 0x90 else 0x80) ≤ b2 ∧ b2 ≤ (if b = 0xF4 then 0x8F else 0xBF) then
      match b3 :: b4 :: bs with
      | [] => [replChar]
      | b3 :: bs3 =>
        if 0x80 ≤ b3 ∧ b3 ≤ 0xBF then
          match bs3 with
          | [] => [replChar]
          | b4 :: bs4 =>
            if 0x80 ≤ b4 ∧ b4 ≤ 0xBF then
              Char.ofNat
                  ((b - 0xF0) * 0x40000 + (b2 - 0x80) * 4096 + (b3 - 0x80) * 64 + (b4 - 0x80)) ::
                utf8DecA f bs4
            else replChar :: utf8DecA f bs3
        else replChar :: utf8DecA f (b3 :: b4 :: bs)
    else replChar :: utf8DecA f (b2 :: b3 :: b4 :: bs)) = _
  rw [if_pos ⟨h3, h4⟩]
  show (if 0x80 ≤ b3 ∧ b3 ≤ 0xBF then
      match b4 :: bs with
      | [] => [replChar]
      | b4 :: bs4 =>
        if 0x80 ≤ b4 ∧ b4 ≤ 0xBF then
          Char.ofNat ((b - 0xF0) * 0x40000 + (b2 - 0x80) * 4096 + (b3 - 0x80) * 64 + (b4 - 0x80)) ::
            utf8DecA f bs4
        else replChar :: utf8DecA f (b4 :: bs)
    else replChar :: utf8DecA f (b3 :: b4 :: bs)) = _
  rw [if_pos ⟨h5, h6⟩]
  show (if 0x80 ≤ b4 ∧ b4 ≤ 0xBF then
      Char.ofNat ((b - 0xF0) * 0x40000 + (b2 - 0x80) * 4096 + (b3 - 0x80) * 64 + (b4 - 0x80)) ::
        utf8DecA f bs
    else replChar :: utf8DecA f (b4 :: bs)) = _
  rw [if_pos ⟨h7, h8⟩]

/-- One fuel step decodes one well-formed encoded scalar. -/
theorem utf8DecA_encodeChar (f : Nat) (c : Char) (bs : List Nat) :
    utf8DecA (f + 1) (utf8EncodeChar c.toNat ++ bs) = c :: utf8DecA f bs := by
  have hv := char_toNat_valid c
  have hofn : Char.ofNat c.toNat = c := Char.ofNat_toNat c
  set n := c.toNat with hn
  rcases Nat.lt_or_ge n 0x80 with h1 | h1
  · rw [utf8EncodeChar, if_pos h1, List.singleton_append, utf8DecA_one f n bs h1, hofn]
  · rcases Nat.lt_or_ge n 0x800 with h2 | h2
    · rw [utf8EncodeChar, if_neg (by omega), if_pos h2]
      simp only [List.cons_append, List.nil_append]
      rw [utf8DecA_two f _ _ bs (by omega) (by omega) (by omega) (by omega)]
      have : (0xC0 + n / 64 - 0xC0) * 64 + (0x80 + n % 64 - 0x80) = n := by omega
      rw [this, hofn]
    · rcases Nat.lt_or_ge n 0x10000 with h3 | h3
      · rw [utf8EncodeChar, if_neg (by omega), if_neg (by omega), if_pos h3]
        simp only [List.cons_append, List.nil_append]
        rw [utf8DecA_three f _ _ _ bs (by omega) (by omega) ?hlo ?hhi (by omega) (by omega)]
        case hlo =>
          by_cases he : 0xE0 + n / 4096 = 0xE0
          · rw [if_pos he]; omega
          · rw [if_neg he]; omega
        case hhi =>
          by_cases he : 0xE0 + n / 4096 = 0xED
          · rw [if_pos he]
            rcases hv with hv | hv
            · omega
            · omega
          · rw [if_neg he]; omega
        have : (0xE0 + n / 4096 - 0xE0) * 4096 + (0x80 + n / 64 % 64 - 0x80) * 64 +
            (0x80 + n % 64 - 0x80) = n := by omega
        rw [this, hofn]
      · have h4 : n < 0x110000 := by
          rcases hv with hv | hv
          · omega
          · omega
        rw [utf8EncodeChar, if_neg (by omega), if_neg (by omega), if_neg (by omega)]
        simp only [List.cons_append, List.nil_append]
        rw [utf8DecA_four f _ _ _ _ bs (by omega) (by omega) ?hlo ?hhi (by omega) (by omega)
          (by omega) (by omega)]
        case hlo =>
          by_cases he : 0xF0 + n / 0x40000 = 0xF0
          · rw [if_pos he]; omega
          · rw [if_neg he]; omega
        case hhi =>
          by_cases he : 0xF0 + n / 0x40000 = 0xF4
          · rw [if_pos he]; omega
          · rw [if_neg he]; omega
        have : (0xF0 + n / 0x40000 - 0xF0) * 0x40000 + (0x80 + n / 4096 % 64 - 0x80) * 4096 +
            (0x80 + n / 64 % 64 - 0x80) * 64 + (0x80 + n % 64 - 0x80) = n := by omega
        rw [this, hofn]

theorem utf8DecA_nil (f : Nat) : utf8DecA f [] = [] := by
  cases f <;> rfl

theorem utf8DecA_encode (f : Nat) (s : JStr) (h : s.length ≤ f) :
    utf8DecA f (utf8Encode s) = s := by
  induction s generalizing f with
  | nil => rw [utf8Encode, List.flatMap_nil, utf8DecA_nil]
  | cons c rest ih =>
    obtain ⟨f', rfl⟩ : ∃ f', f = f' + 1 := ⟨f - 1, by simp at h; omega⟩
    rw [utf8Encode, List.flatMap_cons]
    rw [show rest.flatMap (fun c => utf8EncodeChar c.toNat) = utf8Encode rest from rfl]
    rw [utf8DecA_encodeChar, ih f' (by simp at h; omega)]

theorem utf8Encode_length_ge (s : JStr) : s.length ≤ (utf8Encode s).length := by
  induction s with
  | nil => simp [utf8Encode]
  | cons c rest ih =>
    rw [utf8Encode, List.flatMap_cons]
    rw [show rest.flatMap (fun c => utf8EncodeChar c.toNat) = utf8Encode rest from rfl]
    have : 1 ≤ (utf8EncodeChar c.toNat).length := by
      rw [utf8EncodeChar]
      split_ifs <;> simp
    simp only [List.length_append, List.length_cons]
    omega

/-- UTF-8 encode then WHATWG-decode is the identity on strings. -/
theorem utf8DecodeRepl_encode (s : JStr) : utf8DecodeRepl (utf8Encode s) = s :=
  utf8DecA_encode (utf8Encode s).length s (utf8Encode_length_ge s)

theorem utf8Encode_ascii (bs : List Nat) (h : ∀ b ∈ bs, b < 0x80) :
    utf8Encode (asciiToStr bs) = bs := by
  induction bs with
  | nil => rfl
  | cons b rest ih =>
    have hb : b < 0x80 := h b (by simp)
    have hvalid : b.isValidChar := Or.inl (by omega)
    rw [asciiToStr, List.map_cons, utf8Encode, List.flatMap_cons]
    rw [toNat_ofNat_valid hvalid, utf8EncodeChar, if_pos hb]
    rw [show (rest.map Char.ofNat).flatMap (fun c => utf8EncodeChar c.toNat)
        = utf8Encode (asciiToStr rest) from rfl]
    rw [ih (fun b hb' => h b (by simp [hb']))]
    rfl

theorem utf8EncodeChar_lt_256 (n : Nat) (h : n < 0x110000) :
    ∀ b ∈ utf8EncodeChar n, b < 256 := by
  intro b hb
  rw [utf8EncodeChar] at hb
  split_ifs at hb <;> simp at hb <;> omega

theorem utf8Encode_lt_256 (s : JStr) : ∀ b ∈ utf8Encode s, b < 256 := by
  intro b hb
  rw [utf8Encode] at hb
  rw [List.mem_flatMap] at hb
  obtain ⟨c, _, hbc⟩ := hb
  have hv := char_toNat_valid c
  exact utf8EncodeChar_lt_256 c.toNat (by omega) b hbc

theorem hexUpperDigit_range (x : Nat) (h : x < 16) :
    (48 ≤ hexUpperDigit x ∧ hexUpperDigit x ≤ 57) ∨
      (65 ≤ hexUpperDigit x ∧ hexUpperDigit x ≤ 70) := by
  rw [hexUpperDigit]
  split_ifs <;> omega

theorem hexValB_hexUpperDigit (x : Nat) (h : x < 16) :
    hexValB (hexUpperDigit x) = some x := by
  rw [hexUpperDigit, hexValB]
  by_cases h10 : x < 10
  · rw [if_pos h10, if_pos (by omega)]
    simp only [Option.some.injEq]
    omega
  · rw [if_neg h10, if_neg (by omega), if_pos (by omega)]
    simp only [Option.some.injEq]
    omega

theorem serByte_props (b : Nat) (h : b < 256) :
    ∀ x ∈ serByte b, x < 0x80 ∧ x ≠ 0x26 ∧ x ≠ 0x3D ∧ x ≠ 0x3F := by
  intro x hx
  rw [serByte] at hx
  split_ifs at hx with h1 h2
  · simp at hx; omega
  · simp at hx
    subst hx
    simp [isUrlKeep] at h2
    rcases h2 with h2 | h2 | h2 | h2 | h2 | h2 | h2 <;> omega
  · simp at hx
    have r1 := hexUpperDigit_range (b / 16) (by omega)
    have r2 := hexUpperDigit_range (b % 16) (by omega)
    rcases hx with hx | hx | hx <;> subst hx <;> [omega; rcases r1 with r | r; rcases r2 with r | r] <;> omega

theorem serByte_ne_nil (b : Nat) : serByte b ≠ [] := by
  rw [serByte]
  split_ifs <;> simp

theorem flatMap_serByte_length_ge (bl : List Nat) :
    bl.length ≤ (bl.flatMap serByte).length := by
  induction bl with
  | nil => simp
  | cons b rest ih =>
    rw [List.flatMap_cons]
    have h1 : 1 ≤ (serByte b).length := by
      cases hsb : serByte b with
      | nil => exact absurd hsb (serByte_ne_nil b)
      | cons x xs => simp
    simp only [List.length_append, List.length_cons]
    omega

theorem pdlA_nil (f : Nat) : pdlA f [] = [] := by
  cases f <;> rfl

theorem pdlA_cons (f b : Nat) (rest : List Nat) :
    pdlA (f + 1) (b :: rest) =
      if b = 0x25 then
        match rest with
        | a :: c :: rest2 =>
          match hexValB a, hexValB c with
          | some x, some y => (16 * x + y) :: pdlA f rest2
          | _, _ => b :: pdlA f rest
        | _ => b :: pdlA f rest
      else b :: pdlA f rest := rfl

theorem plusToSpace_hexUpperDigit (x : Nat) (h : x < 16) :
    plusToSpace (hexUpperDigit x) = hexUpperDigit x := by
  rw [plusToSpace, if_neg]
  rcases hexUpperDigit_range x h with r | r <;> omega

/-- Percent-decoding (after plus-to-space) undoes the urlencoded byte
serializer. -/
theorem pdlA_serialized (f : Nat) :
    ∀ bl : List Nat, bl.length ≤ f → (∀ b ∈ bl, b < 256) →
      pdlA f ((bl.flatMap serByte).map plusToSpace) = bl := by
  induction f with
  | zero =>
    intro bl hlen _
    have : bl = [] := by
      cases bl with
      | nil => rfl
      | cons b rest => simp at hlen
    subst this
    simp [pdlA_nil]
  | succ f ih =>
    intro bl hlen hlt
    cases bl with
    | nil => simp [pdlA_nil]
    | cons b rest =>
      have hb : b < 256 := hlt b (by simp)
      rw [List.flatMap_cons, List.map_append]
      by_cases hsp : b = 0x20
      · subst hsp
        rw [show ((serByte 0x20).map plusToSpace) = [0x20] from rfl]
        rw [List.singleton_append, pdlA_cons, if_neg (by decide)]
        rw [ih rest (by simp at hlen; omega) (fun x hx => hlt x (by simp [hx]))]
      · by_cases hk : isUrlKeep b = true
        · rw [serByte, if_neg hsp, if_pos hk]
          simp [isUrlKeep] at hk
          rw [show ([b].map plusToSpace) = [plusToSpace b] from rfl]
          rw [plusToSpace, if_neg (by omega)]
          rw [List.singleton_append, pdlA_cons, if_neg (by omega)]
          rw [ih rest (by simp at hlen; omega) (fun x hx => hlt x (by simp [hx]))]
        · rw [serByte, if_neg hsp, if_neg hk]
          rw [show ([0x25, hexUpperDigit (b / 16), hexUpperDigit (b % 16)].map plusToSpace)
              = [plusToSpace 0x25, plusToSpace (hexUpperDigit (b / 16)),
                  plusToSpace (hexUpperDigit (b % 16))] from rfl]
          rw [show plusToSpace 0x25 = 0x25 from rfl]
          rw [plusToSpace_hexUpperDigit _ (by omega), plusToSpace_hexUpperDigit _ (by omega)]
          simp only [List.cons_append, List.nil_append]
          rw [pdlA_cons, if_pos rfl]
          show (match hexValB (hexUpperDigit (b / 16)), hexValB (hexUpperDigit (b % 16)) with
            | some x, some y => (16 * x + y) :: pdlA f ((rest.flatMap serByte).map plusToSpace)
            | _, _ => 0x25 :: pdlA f (hexUpperDigit (b / 16) :: hexUpperDigit (b % 16) ::
                (rest.flatMap serByte).map plusToSpace)) = b :: rest
          rw [hexValB_hexUpperDigit _ (by omega), hexValB_hexUpperDigit _ (by omega)]
          show (16 * (b / 16) + b % 16) :: pdlA f ((rest.flatMap serByte).map plusToSpace)
              = b :: rest
          have hb16 : 16 * (b / 16) + b % 16 = b := by omega
          rw [hb16, ih rest (by simp at hlen; omega) (fun x hx => hlt x (by simp [hx]))]

/-- Decoding one urlencoded component undoes serialization of a string. -/
theorem decodeComp_serBytes (s : JStr) : decodeComp (serBytes s) = s := by
  rw [decodeComp, percentDecodeLenient, serBytes]
  rw [pdlA_serialized _ (utf8Encode s) ?hlen (utf8Encode_lt_256 s)]
  case hlen =>
    have h1 := flatMap_serByte_length_ge (utf8Encode s)
    simp only [List.length_map]
    omega
  exact utf8DecodeRepl_encode s

theorem splitOnByte_ne_nil (sep : Nat) (l : List Nat) : splitOnByte sep l ≠ [] := by
  induction l with
  | nil => simp [splitOnByte]
  | cons b rest ih =>
    rw [splitOnByte]
    by_cases h : b = sep
    · rw [if_pos h]; simp
    · rw [if_neg h]
      cases hs : splitOnByte sep rest with
      | nil => simp
      | cons hd tl => simp

theorem splitOnByte_no_sep (sep : Nat) (xs : List Nat) (h : ∀ b ∈ xs, b ≠ sep) :
    splitOnByte sep xs = [xs] := by
  induction xs with
  | nil => rfl
  | cons b rest ih =>
    rw [splitOnByte, if_neg (h b (by simp))]
    rw [ih (fun x hx => h x (by simp [hx]))]

theorem splitOnByte_append (sep : Nat) (xs ys : List Nat) (h : ∀ b ∈ xs, b ≠ sep) :
    splitOnByte sep (xs ++ sep :: ys) = xs :: splitOnByte sep ys := by
  induction xs with
  | nil => rw [List.nil_append, splitOnByte, if_pos rfl]
  | cons b rest ih =>
    rw [List.cons_append, splitOnByte, if_neg (h b (by simp))]
    rw [ih (fun x hx => h x (by simp [hx]))]

theorem splitOnByte_joinSep (sep : Nat) (segs : List (List Nat))
    (h : ∀ seg ∈ segs, seg ≠ [] ∧ ∀ b ∈ seg, b ≠ sep) :
    (splitOnByte sep (joinSepByte sep segs)).filter (fun seg => !seg.isEmpty) = segs := by
  induction segs with
  | nil => rfl
  | cons x xs ih =>
    cases xs with
    | nil =>
      rw [joinSepByte, splitOnByte_no_sep sep x (h x (by simp)).2]
      have hx := (h x (by simp)).1
      simp [List.isEmpty_iff, hx]
    | cons y ys =>
      rw [show joinSepByte sep (x :: y :: ys) = x ++ sep :: joinSepByte sep (y :: ys) from rfl]
      rw [splitOnByte_append sep x _ (h x (by simp)).2]
      have hx := (h x (by simp)).1
      rw [List.filter_cons]
      rw [if_pos (by simp [List.isEmpty_iff, hx])]
      rw [ih (fun seg hs => h seg (by simp at hs ⊢; tauto))]

theorem splitFirstEq_append (xs ys : List Nat) (h : ∀ b ∈ xs, b ≠ 0x3D) :
    splitFirstEq (xs ++ 0x3D :: ys) = (xs, ys) := by
  induction xs with
  | nil => rw [List.nil_append, splitFirstEq, if_pos rfl]
  | cons b rest ih =>
    rw [List.cons_append, splitFirstEq, if_neg (h b (by simp))]
    rw [ih (fun x hx => h x (by simp [hx]))]

theorem joinSepByte_mem (sep : Nat) (segs : List (List Nat)) (b : Nat)
    (hb : b ∈ joinSepByte sep segs) : b = sep ∨ ∃ seg ∈ segs, b ∈ seg := by
  induction segs with
  | nil => simp [joinSepByte] at hb
  | cons x xs ih =>
    cases xs with
    | nil =>
      rw [joinSepByte] at hb
      exact Or.inr ⟨x, by simp, hb⟩
    | cons y ys =>
      rw [show joinSepByte sep (x :: y :: ys) = x ++ sep :: joinSepByte sep (y :: ys) from rfl]
        at hb
      rw [List.mem_append] at hb
      rcases hb with hb | hb
      · exact Or.inr ⟨x, by simp, hb⟩
      · rw [List.mem_cons] at hb
        rcases hb with hb | hb
        · exact Or.inl hb
        · rcases ih hb with hb | ⟨seg, hs, hbs⟩
          · exact Or.inl hb
          · exact Or.inr ⟨seg, by simp at hs ⊢; tauto, hbs⟩

theorem serPair_props (p : JStr × JStr) :
    ∀ x ∈ serPair p, x < 0x80 ∧ (x ≠ 0x26 ∧ x ≠ 0x3F) := by
  intro x hx
  rw [serPair] at hx
  rw [List.mem_append, List.mem_cons] at hx
  rcases hx with hx | hx | hx
  · rw [serBytes, List.mem_flatMap] at hx
    obtain ⟨b, hb, hxb⟩ := hx
    have := serByte_props b (by have := utf8Encode_lt_256 p.1 b hb; omega) x hxb
    tauto
  · subst hx
    refine ⟨by omega, by omega, by omega⟩
  · rw [serBytes, List.mem_flatMap] at hx
    obtain ⟨b, hb, hxb⟩ := hx
    have := serByte_props b (by have := utf8Encode_lt_256 p.2 b hb; omega) x hxb
    tauto

theorem serializeParams_bytes_lt (ps : List (JStr × JStr)) :
    ∀ b ∈ joinSepByte 0x26 (ps.map serPair), b < 0x80 ∧ b ≠ 0x3F := by
  intro b hb
  rcases joinSepByte_mem 0x26 _ b hb with hb | ⟨seg, hs, hbs⟩
  · subst hb; exact ⟨by omega, by omega⟩
  · rw [List.mem_map] at hs
    obtain ⟨p, _, rfl⟩ := hs
    have := serPair_props p b hbs
    tauto

/-- Parsing undoes serialization: the `URLSearchParams` round trip on
ordered name/value pair lists. -/
theorem parseParams_serializeParams (ps : List (JStr × JStr)) :
    parseParams (serializeParams ps) = ps := by
  rw [parseParams, serializeParams]
  have hlt := serializeParams_bytes_lt ps
  have hdq : dropQuestion (asciiToStr (joinSepByte 0x26 (ps.map serPair)))
      = asciiToStr (joinSepByte 0x26 (ps.map serPair)) := by
    unfold dropQuestion
    cases hj : joinSepByte 0x26 (ps.map serPair) with
    | nil => rfl
    | cons b rest =>
      rw [if_neg]
      rw [asciiToStr, List.map_cons, List.head?]
      intro hc
      simp only [Option.some.injEq] at hc
      have hb := hlt b (by rw [hj]; simp)
      have : (Char.ofNat b).toNat = b := toNat_ofNat_valid (Or.inl (by omega))
      rw [hc] at this
      have h63 : ('?').toNat = 63 := rfl
      omega
  rw [hdq, utf8Encode_ascii _ (fun b hb => (hlt b hb).1)]
  rw [splitOnByte_joinSep 0x26 (ps.map serPair) ?hsegs]
  case hsegs =>
    intro seg hs
    rw [List.mem_map] at hs
    obtain ⟨p, _, rfl⟩ := hs
    constructor
    · rw [serPair]
      simp
    · intro b hb
      exact (serPair_props p b hb).2.1
  rw [List.map_map]
  have hmapid : ∀ q : List (JStr × JStr),
      (∀ p ∈ q, (fun seg => (decodeComp (splitFirstEq seg).1, decodeComp (splitFirstEq seg).2))
          (serPair p) = p) →
        q.map ((fun seg => (decodeComp (splitFirstEq seg).1, decodeComp (splitFirstEq seg).2))
          ∘ serPair) = q := by
    intro q hq
    induction q with
    | nil => rfl
    | cons p rest ihq =>
      rw [List.map_cons]
      have h1 : (decodeComp (splitFirstEq (serPair p)).1,
          decodeComp (splitFirstEq (serPair p)).2) = p := hq p (by simp)
      simp only [Function.comp_apply]
      rw [h1, ihq (fun x hx => hq x (by simp [hx]))]
  refine hmapid ps ?_
  intro p _
  show (decodeComp (splitFirstEq (serPair p)).1, decodeComp (splitFirstEq (serPair p)).2) = p
  rw [serPair, splitFirstEq_append _ _ (fun b hb => by
    rw [serBytes, List.mem_flatMap] at hb
    obtain ⟨x, hx, hbx⟩ := hb
    exact (serByte_props x (by have := utf8Encode_lt_256 p.1 x hx; omega) b hbx).2.2.1)]
  rw [decodeComp_serBytes, decodeComp_serBytes]

theorem decURIA_nil (f : Nat) : decURIA f [] = some [] := by
  cases f <;> rfl

theorem decURIA_cons (f : Nat) (c : Char) (rest : JStr) :
    decURIA (f + 1) (c :: rest) =
      if c = '%' then
        match readEsc rest with
        | none => none
        | some p => (decURIA f p.2).map (fun t => p.1 :: t)
      else (decURIA f rest).map (fun t => c :: t) := rfl

/-- On strings with no percent sign, `decodeURIComponent` is the identity. -/
theorem decURIA_no_pct (f : Nat) :
    ∀ s : JStr, s.length ≤ f → (∀ c ∈ s, c ≠ '%') → decURIA f s = some s := by
  induction f with
  | zero =>
    intro s hlen _
    have : s = [] := by
      cases s with
      | nil => rfl
      | cons c rest => simp at hlen
    subst this
    exact decURIA_nil 0
  | succ f ih =>
    intro s hlen hnp
    cases s with
    | nil => exact decURIA_nil (f + 1)
    | cons c rest =>
      rw [decURIA_cons, if_neg (hnp c (by simp))]
      rw [ih rest (by simp at hlen; omega) (fun x hx => hnp x (by simp [hx]))]
      rfl

theorem decodeURIComponent_no_pct (s : JStr) (h : ∀ c ∈ s, c ≠ '%') :
    decodeURIComponent s = some s :=
  decURIA_no_pct s.length s le_rfl h

theorem sAAA_nil (f : Nat) : sAAA f [] = [[]] := by
  cases f <;> rfl

/-- A string with no `"&&"` substring is returned whole by the split. -/
theorem sAAA_no_ampamp (f : Nat) :
    ∀ s : JStr, s.length ≤ f → ¬ ['&', '&'] <:+: s → sAAA f s = [s] := by
  induction f with
  | zero =>
    intro s hlen _
    have : s = [] := by
      cases s with
      | nil => rfl
      | cons c rest => simp at hlen
    subst this
    exact sAAA_nil 0
  | succ f ih =>
    intro s hlen hna
    cases s with
    | nil => exact sAAA_nil (f + 1)
    | cons c rest =>
      have hcond : ¬ (c = '&' ∧ rest.head? = some '&') := by
        rintro ⟨rfl, hh⟩
        cases rest with
        | nil => simp at hh
        | cons c2 r2 =>
          simp at hh
          subst hh
          exact hna ⟨[], r2, rfl⟩
      rw [sAAA, if_neg hcond]
      have hrest : ¬ ['&', '&'] <:+: rest := fun hinf => hna (List.infix_cons hinf)
      rw [ih rest (by simp at hlen; omega) hrest]

theorem splitAmpAmp_no_ampamp (s : JStr) (h : ¬ ['&', '&'] <:+: s) : splitAmpAmp s = [s] :=
  sAAA_no_ampamp s.length s le_rfl h

/-! ### Parameter-name matching lemmas -/

theorem stripLead_cons (p c : Char) (ps cs : JStr) :
    stripLead (p :: ps) (c :: cs) = if c = p then stripLead ps cs else none := rfl

theorem stripLead_pre (pre : JStr) : ∀ t, stripLead pre (pre ++ t) = some t := by
  induction pre with
  | nil => intro t; rfl
  | cons p ps ih =>
    intro t
    rw [List.cons_append, stripLead_cons, if_pos rfl, ih]

theorem stripLead_shift (xs : JStr) : ∀ a b, stripLead (xs ++ a) (xs ++ b) = stripLead a b := by
  induction xs with
  | nil => intro a b; rfl
  | cons x xs ih =>
    intro a b
    rw [List.cons_append, List.cons_append, stripLead_cons, if_pos rfl, ih]

/-- A dense-index parameter name `pre{i}` matches its own prefix regex and
parses back to `i`. -/
theorem matchIdx_self (pre : JStr) (i : Nat) : matchIdx pre (pre ++ natRepr i) = some i := by
  rw [matchIdx, stripLead_pre]
  show (if (!(natRepr i).isEmpty && (natRepr i).all isDigitC) = true
    then some (digitsVal (natRepr i)) else none) = some i
  rw [if_pos]
  · rw [digitsVal_natRepr]
  · rw [Bool.and_eq_true, List.all_eq_true]
    constructor
    · simp [List.isEmpty_iff, natRepr_ne_nil i]
    · exact natRepr_all_digits i

/-- A name whose first character differs from the prefix head never matches. -/
theorem matchIdx_none_head (pre name : JStr) (p : Char) (hp : pre.head? = some p)
    (hname : ∀ c, name.head? = some c → c ≠ p) : matchIdx pre name = none := by
  cases pre with
  | nil => simp at hp
  | cons p0 ps =>
    simp only [List.head?] at hp
    injection hp with hp
    subst hp
    cases name with
    | nil => rfl
    | cons c cs =>
      rw [matchIdx, stripLead_cons, if_neg (hname c rfl)]

/-- A name `pre ++ rest` with a non-digit first `rest` character does not
match `^pre(\d+)$`. -/
theorem matchIdx_nondigit_rest (pre : JStr) (e : Char) (t : JStr) (h : isDigitC e = false) :
    matchIdx pre (pre ++ e :: t) = none := by
  rw [matchIdx, stripLead_pre]
  show (if (!(e :: t).isEmpty && (e :: t).all isDigitC) = true
    then some (digitsVal (e :: t)) else none) = none
  rw [if_neg]
  simp [h]

/-- A longer prefix `pre ++ e :: es` does not match a name `pre ++ d` whose
remainder starts with a character other than `e` (or is empty). -/
theorem matchIdx_longpre (pre : JStr) (e : Char) (es d : JStr)
    (h : ∀ c, d.head? = some c → c ≠ e) : matchIdx (pre ++ e :: es) (pre ++ d) = none := by
  rw [matchIdx, stripLead_shift]

  cases d with
  | nil => rfl
  | cons c cs =>
    rw [stripLead_cons, if_neg (h c rfl)]

theorem natRepr_head_digit (i : Nat) : ∀ c, (natRepr i).head? = some c → isDigitC c = true := by
  intro c hc
  cases h : natRepr i with
  | nil => rw [h] at hc; simp at hc
  | cons x xs =>
    rw [h] at hc
    simp only [List.head?, Option.some.injEq] at hc
    exact hc ▸ natRepr_all_digits i x (by rw [h]; simp)

theorem digit_ne (c e : Char) (hc : isDigitC c = true) (he : isDigitC e = false) : c ≠ e := by
  intro h
  subst h
  rw [hc] at he
  exact Bool.noConfusion he

/-- A parameter name whose head is neither `s` nor `o` passes through all
four select-family checks unchanged. -/
theorem applySelects_id (st : DecState) (name v : JStr)
    (h1 : matchIdx (jstr "select") name = none)
    (h2 : matchIdx (jstr "selectAs") name = none)
    (h3 : matchIdx (jstr "orderBy") name = none)
    (h4 : matchIdx (jstr "orderByDirection") name = none) :
    applySelects st name v = st := by
  rw [applySelects]
  simp only [h1, h2, h3, h4]

theorem applySelects_id_head (st : DecState) (name v : JStr) (c : Char)
    (hc : name.head? = some c) (hs : c ≠ 's') (ho : c ≠ 'o') :
    applySelects st name v = st := by
  refine applySelects_id st name v ?_ ?_ ?_ ?_ <;>
    refine matchIdx_none_head _ name _ rfl (fun d hd => ?_) <;>
    rw [hc] at hd <;> injection hd with hd <;> subst hd <;> assumption

/-- Effect of one decoder callback on a `key{i}` parameter. -/
theorem decodeStep_keyname (st : DecState) (i : Nat) (v : JStr) :
    decodeStep st (preKey ++ natRepr i) v =
      some { st with cmap := mapUpdate st.cmap i (fun pc => { pc with key := some v }) {} } := by
  have hhead : (preKey ++ natRepr i).head? = some 'k' := rfl
  have hsel := applySelects_id_head
    { st with cmap := mapUpdate st.cmap i (fun pc => { pc with key := some v }) {} }
    (preKey ++ natRepr i) v 'k' hhead (by decide) (by decide)
  simp only [decodeStep, critStep, matchIdx_self, Option.map, hsel]

/-- Effect of one decoder callback on an `operation{i}` parameter. -/
theorem decodeStep_opname (st : DecState) (i : Nat) (v : JStr) :
    decodeStep st (preOperation ++ natRepr i) v =
      some { st with
        cmap := mapUpdate st.cmap i (fun pc => { pc with operation := some v }) {} } := by
  have hhead : (preOperation ++ natRepr i).head? = some 'o' := rfl
  have hk : matchIdx preKey (preOperation ++ natRepr i) = none :=
    matchIdx_none_head _ _ 'k' rfl (fun d hd => by
      rw [hhead] at hd; injection hd with hd; subst hd; decide)
  have hsel : matchIdx (jstr "select") (preOperation ++ natRepr i) = none :=
    matchIdx_none_head _ _ 's' rfl (fun d hd => by
      rw [hhead] at hd; injection hd with hd; subst hd; decide)
  have hselAs : matchIdx (jstr "selectAs") (preOperation ++ natRepr i) = none :=
    matchIdx_none_head _ _ 's' rfl (fun d hd => by
      rw [hhead] at hd; injection hd with hd; subst hd; decide)
  have hob : matchIdx (jstr "orderBy") (preOperation ++ natRepr i) = none := by
    rw [show jstr "orderBy" = jstr "o" ++ 'r' :: jstr "derBy" from rfl,
      show preOperation ++ natRepr i = jstr "o" ++ ('p' :: (jstr "eration" ++ natRepr i))
        from rfl]
    exact matchIdx_longpre _ _ _ _ (fun d hd => by injection hd with hd; subst hd; decide)
  have hobd : matchIdx (jstr "orderByDirection") (preOperation ++ natRepr i) = none := by
    rw [show jstr "orderByDirection" = jstr "o" ++ 'r' :: jstr "derByDirection" from rfl,
      show preOperation ++ natRepr i = jstr "o" ++ ('p' :: (jstr "eration" ++ natRepr i))
        from rfl]
    exact matchIdx_longpre _ _ _ _ (fun d hd => by injection hd with hd; subst hd; decide)
  have hsel' := applySelects_id
    { st with cmap := mapUpdate st.cmap i (fun pc => { pc with operation := some v }) {} }
    (preOperation ++ natRepr i) v hsel hselAs hob hobd
  simp only [decodeStep, critStep, hk, matchIdx_self, Option.map, hsel']

/-- Effect of one decoder callback on a `values{i}` parameter whose value
decodes without a `URIError`. -/
theorem decodeStep_valname (st : DecState) (i : Nat) (v dv : JStr)
    (hdec : decodeURIComponent v = some dv) :
    decodeStep st (preValues ++ natRepr i) v =
      some { st with
        cmap := mapUpdate st.cmap i
          (fun pc => { pc with values := some (pc.values.getD [] ++ splitAmpAmp dv) })
          { values := some [] } } := by
  have hhead : (preValues ++ natRepr i).head? = some 'v' := rfl
  have hk : matchIdx preKey (preValues ++ natRepr i) = none :=
    matchIdx_none_head _ _ 'k' rfl (fun d hd => by
      rw [hhead] at hd; injection hd with hd; subst hd; decide)
  have hop : matchIdx preOperation (preValues ++ natRepr i) = none :=
    matchIdx_none_head _ _ 'o' rfl (fun d hd => by
      rw [hhead] at hd; injection hd with hd; subst hd; decide)
  have hsel' := applySelects_id_head
    { st with
      cmap := mapUpdate st.cmap i
        (fun pc => { pc with values := some (pc.values.getD [] ++ splitAmpAmp dv) })
        { values := some [] } }
    (preValues ++ natRepr i) v 'v' hhead (by decide) (by decide)
  simp only [decodeStep, critStep, hk, hop, matchIdx_self, hdec, Option.map, hsel']

/-- A `values{i}` parameter whose value throws in `decodeURIComponent`
aborts the whole decode. -/
theorem decodeStep_valname_throw (st : DecState) (i : Nat) (v : JStr)
    (hdec : decodeURIComponent v = none) :
    decodeStep st (preValues ++ natRepr i) v = none := by
  have hhead : (preValues ++ natRepr i).head? = some 'v' := rfl
  have hk : matchIdx preKey (preValues ++ natRepr i) = none :=
    matchIdx_none_head _ _ 'k' rfl (fun d hd => by
      rw [hhead] at hd; injection hd with hd; subst hd; decide)
  have hop : matchIdx preOperation (preValues ++ natRepr i) = none :=
    matchIdx_none_head _ _ 'o' rfl (fun d hd => by
      rw [hhead] at hd; injection hd with hd; subst hd; decide)
  simp only [decodeStep, critStep, hk, hop, matchIdx_self, hdec, Option.map]

/-- A parameter whose name matches none of the seven indexed regexes and is
processed as neither `page` nor `pageSize` inside the fold leaves the
decoder state unchanged. -/
theorem decodeStep_inert (st : DecState) (name v : JStr)
    (h1 : matchIdx preKey name = none) (h2 : matchIdx preOperation name = none)
    (h3 : matchIdx preValues name = none) (h4 : matchIdx (jstr "select") name = none)
    (h5 : matchIdx (jstr "selectAs") name = none) (h6 : matchIdx (jstr "orderBy") name = none)
    (h7 : matchIdx (jstr "orderByDirection") name = none) :
    decodeStep st name v = some st := by
  simp only [decodeStep, critStep, h1, h2, h3, Option.map, applySelects_id st name v h4 h5 h6 h7]

theorem head_of_append_jstr (a : String) (c : Char) (h : a.data.head? = some c) (t : JStr) :
    (jstr a ++ t).head? = some c := by
  rw [jstr]
  cases hd : a.data with
  | nil => rw [hd] at h; simp at h
  | cons x xs => rw [hd] at h; simp at h ⊢; exact h

theorem natRepr_head_ne (i : Nat) (e : Char) (he : isDigitC e = false) :
    ∀ c, (natRepr i).head? = some c → c ≠ e :=
  fun c hc => digit_ne c e (natRepr_head_digit i c hc) he

/-- Effect of one decoder callback on a `select{i}` parameter. -/
theorem decodeStep_selname (st : DecState) (i : Nat) (v : JStr) :
    decodeStep st (jstr "select" ++ natRepr i) v =
      some { st with select := setSparse st.select i v } := by
  have hhead : (jstr "select" ++ natRepr i).head? = some 's' := rfl
  have hne : ∀ p : Char, p ≠ 's' → ∀ d, (jstr "select" ++ natRepr i).head? = some d → d ≠ p :=
    fun p hp d hd => by rw [hhead] at hd; injection hd with hd; subst hd; exact fun h => hp h.symm
  have hk : matchIdx preKey (jstr "select" ++ natRepr i) = none :=
    matchIdx_none_head _ _ 'k' rfl (hne 'k' (by decide))
  have hop : matchIdx preOperation (jstr "select" ++ natRepr i) = none :=
    matchIdx_none_head _ _ 'o' rfl (hne 'o' (by decide))
  have hv : matchIdx preValues (jstr "select" ++ natRepr i) = none :=
    matchIdx_none_head _ _ 'v' rfl (hne 'v' (by decide))
  have hselAs : matchIdx (jstr "selectAs") (jstr "select" ++ natRepr i) = none := by
    rw [show jstr "selectAs" = jstr "select" ++ 'A' :: jstr "s" from rfl]
    exact matchIdx_longpre _ _ _ _ (natRepr_head_ne i 'A' (by decide))
  have hob : matchIdx (jstr "orderBy") (jstr "select" ++ natRepr i) = none :=
    matchIdx_none_head _ _ 'o' rfl (hne 'o' (by decide))
  have hobd : matchIdx (jstr "orderByDirection") (jstr "select" ++ natRepr i) = none :=
    matchIdx_none_head _ _ 'o' rfl (hne 'o' (by decide))
  simp only [decodeStep, critStep, hk, hop, hv, Option.map, applySelects, matchIdx_self,
    hselAs, hob, hobd]

/-- Effect of one decoder callback on a `selectAs{i}` parameter. -/
theorem decodeStep_selAsname (st : DecState) (i : Nat) (v : JStr) :
    decodeStep st (jstr "selectAs" ++ natRepr i) v =
      some { st with selectAs := setSparse st.selectAs i v } := by
  have hhead : (jstr "selectAs" ++ natRepr i).head? = some 's' := rfl
  have hne : ∀ p : Char, p ≠ 's' → ∀ d, (jstr "selectAs" ++ natRepr i).head? = some d → d ≠ p :=
    fun p hp d hd => by rw [hhead] at hd; injection hd with hd; subst hd; exact fun h => hp h.symm
  have hk : matchIdx preKey (jstr "selectAs" ++ natRepr i) = none :=
    matchIdx_none_head _ _ 'k' rfl (hne 'k' (by decide))
  have hop : matchIdx preOperation (jstr "selectAs" ++ natRepr i) = none :=
    matchIdx_none_head _ _ 'o' rfl (hne 'o' (by decide))
  have hv : matchIdx preValues (jstr "selectAs" ++ natRepr i) = none :=
    matchIdx_none_head _ _ 'v' rfl (hne 'v' (by decide))
  have hsel : matchIdx (jstr "select") (jstr "selectAs" ++ natRepr i) = none := by
    rw [show jstr "selectAs" ++ natRepr i
        = jstr "select" ++ 'A' :: (jstr "s" ++ natRepr i) from rfl]
    exact matchIdx_nondigit_rest _ _ _ (by decide)
  have hob : matchIdx (jstr "orderBy") (jstr "selectAs" ++ natRepr i) = none :=
    matchIdx_none_head _ _ 'o' rfl (hne 'o' (by decide))
  have hobd : matchIdx (jstr "orderByDirection") (jstr "selectAs" ++ natRepr i) = none :=
    matchIdx_none_head _ _ 'o' rfl (hne 'o' (by decide))
  simp only [decodeStep, critStep, hk, hop, hv, Option.map, applySelects, matchIdx_self,
    hsel, hob, hobd]

/-- Effect of one decoder callback on an `orderBy{i}` parameter. -/
theorem decodeStep_obname (st : DecState) (i : Nat) (v : JStr) :
    decodeStep st (jstr "orderBy" ++ natRepr i) v =
      some { st with orderBy := setSparse st.orderBy i v } := by
  have hhead : (jstr "orderBy" ++ natRepr i).head? = some 'o' := rfl
  have hne : ∀ p : Char, p ≠ 'o' → ∀ d, (jstr "orderBy" ++ natRepr i).head? = some d → d ≠ p :=
    fun p hp d hd => by rw [hhead] at hd; injection hd with hd; subst hd; exact fun h => hp h.symm
  have hk : matchIdx preKey (jstr "orderBy" ++ natRepr i) = none :=
    matchIdx_none_head _ _ 'k' rfl (hne 'k' (by decide))
  have hop : matchIdx preOperation (jstr "orderBy" ++ natRepr i) = none := by
    rw [show preOperation = jstr "o" ++ 'p' :: jstr "eration" from rfl,
      show jstr "orderBy" ++ natRepr i = jstr "o" ++ ('r' :: (jstr "derBy" ++ natRepr i))
        from rfl]
    exact matchIdx_longpre _ _ _ _ (fun d hd => by injection hd with hd; subst hd; decide)
  have hv : matchIdx preValues (jstr "orderBy" ++ natRepr i) = none :=
    matchIdx_none_head _ _ 'v' rfl (hne 'v' (by decide))
  have hsel : matchIdx (jstr "select") (jstr "orderBy" ++ natRepr i) = none :=
    matchIdx_none_head _ _ 's' rfl (hne 's' (by decide))
  have hselAs : matchIdx (jstr "selectAs") (jstr "orderBy" ++ natRepr i) = none :=
    matchIdx_none_head _ _ 's' rfl (hne 's' (by decide))
  have hobd : matchIdx (jstr "orderByDirection") (jstr "orderBy" ++ natRepr i) = none := by
    rw [show jstr "orderByDirection" = jstr "orderBy" ++ 'D' :: jstr "irection" from rfl]
    exact matchIdx_longpre _ _ _ _ (natRepr_head_ne i 'D' (by decide))
  simp only [decodeStep, critStep, hk, hop, hv, Option.map, applySelects, matchIdx_self,
    hsel, hselAs, hobd]

/-- Effect of one decoder callback on an `orderByDirection{i}` parameter. -/
theorem decodeStep_obdname (st : DecState) (i : Nat) (v : JStr) :
    decodeStep st (jstr "orderByDirection" ++ natRepr i) v =
      some { st with orderByDirection := setSparse st.orderByDirection i v } := by
  have hhead : (jstr "orderByDirection" ++ natRepr i).head? = some 'o' := rfl
  have hne : ∀ p : Char, p ≠ 'o' →
      ∀ d, (jstr "orderByDirection" ++ natRepr i).head? = some d → d ≠ p :=
    fun p hp d hd => by rw [hhead] at hd; injection hd with hd; subst hd; exact fun h => hp h.symm
  have hk : matchIdx preKey (jstr "orderByDirection" ++ natRepr i) = none :=
    matchIdx_none_head _ _ 'k' rfl (hne 'k' (by decide))
  have hop : matchIdx preOperation (jstr "orderByDirection" ++ natRepr i) = none := by
    rw [show preOperation = jstr "o" ++ 'p' :: jstr "eration" from rfl,
      show jstr "orderByDirection" ++ natRepr i
        = jstr "o" ++ ('r' :: (jstr "derByDirection" ++ natRepr i)) from rfl]
    exact matchIdx_longpre _ _ _ _ (fun d hd => by injection hd with hd; subst hd; decide)
  have hv : matchIdx preValues (jstr "orderByDirection" ++ natRepr i) = none :=
    matchIdx_none_head _ _ 'v' rfl (hne 'v' (by decide))
  have hsel : matchIdx (jstr "select") (jstr "orderByDirection" ++ natRepr i) = none :=
    matchIdx_none_head _ _ 's' rfl (hne 's' (by decide))
  have hselAs : matchIdx (jstr "selectAs") (jstr "orderByDirection" ++ natRepr i) = none :=
    matchIdx_none_head _ _ 's' rfl (hne 's' (by decide))
  have hob : matchIdx (jstr "orderBy") (jstr "orderByDirection" ++ natRepr i) = none := by
    rw [show jstr "orderByDirection" ++ natRepr i
        = jstr "orderBy" ++ ('D' :: (jstr "irection" ++ natRepr i)) from rfl]
    exact matchIdx_nondigit_rest _ _ _ (by decide)
  simp only [decodeStep, critStep, hk, hop, hv, Option.map, applySelects, matchIdx_self,
    hsel, hselAs, hob]

/-- `page` and `pageSize` parameters are inert in the decoder fold (they are
read from the parameter list afterwards). -/
theorem decodeStep_pagename (st : DecState) (name v : JStr)
    (hhead : name.head? = some 'p') : decodeStep st name v = some st := by
  have hne : ∀ p : Char, p ≠ 'p' → ∀ d, name.head? = some d → d ≠ p :=
    fun p hp d hd => by rw [hhead] at hd; injection hd with hd; subst hd; exact fun h => hp h.symm
  exact decodeStep_inert st name v
    (matchIdx_none_head _ _ 'k' rfl (hne 'k' (by decide)))
    (matchIdx_none_head _ _ 'o' rfl (hne 'o' (by decide)))
    (matchIdx_none_head _ _ 'v' rfl (hne 'v' (by decide)))
    (matchIdx_none_head _ _ 's' rfl (hne 's' (by decide)))
    (matchIdx_none_head _ _ 's' rfl (hne 's' (by decide)))
    (matchIdx_none_head _ _ 'o' rfl (hne 'o' (by decide)))
    (matchIdx_none_head _ _ 'o' rfl (hne 'o' (by decide)))

theorem critParams_eq_from (cs : List Criteria) : critParams cs = critParamsFrom 0 cs := rfl

theorem decodeFold_eq (params : List (JStr × JStr)) :
    decodeFold params = params.foldlM stepFn initState := rfl

theorem decState_eta (st : DecState) : { st with cmap := st.cmap } = st := rfl

theorem mapUpdate_fresh (i : Nat) (f : PartialCrit → PartialCrit) (init : PartialCrit) :
    ∀ m : List (Nat × PartialCrit), (∀ e ∈ m, e.1 ≠ i) →
      mapUpdate m i f init = m ++ [(i, f init)] := by
  intro m
  induction m with
  | nil => intro _; rfl
  | cons e rest ih =>
    intro h
    obtain ⟨j, pc⟩ := e
    rw [mapUpdate, if_neg (by have := h (j, pc) (by simp); simpa using this)]
    rw [ih (fun e he => h e (by simp [he]))]
    rfl

theorem mapUpdate_last (i : Nat) (pc : PartialCrit) (f : PartialCrit → PartialCrit)
    (init : PartialCrit) : ∀ M : List (Nat × PartialCrit), (∀ e ∈ M, e.1 ≠ i) →
      mapUpdate (M ++ [(i, pc)]) i f init = M ++ [(i, f pc)] := by
  intro M
  induction M with
  | nil => intro _; rw [List.nil_append, mapUpdate, if_pos rfl]; rfl
  | cons e rest ih =>
    intro h
    obtain ⟨j, q⟩ := e
    rw [List.cons_append, mapUpdate, if_neg (by have := h (j, q) (by simp); simpa using this)]
    rw [ih (fun e he => h e (by simp [he]))]
    rfl

theorem valueSane_decode (v : JStr) (h : ValueSane v) :
    decodeURIComponent v = some v ∧ splitAmpAmp v = [v] :=
  ⟨decodeURIComponent_no_pct v h.1, splitAmpAmp_no_ampamp v h.2⟩

theorem fold_values_go (i : Nat) :
    ∀ (vs : List JStr) (st : DecState) (M : List (Nat × PartialCrit)) (pc : PartialCrit),
      st.cmap = M ++ [(i, pc)] → (∀ e ∈ M, e.1 ≠ i) → pc.values.isSome →
      (∀ v ∈ vs, ValueSane v) →
      (vs.map (fun v => (preValues ++ natRepr i, v))).foldlM stepFn st =
        some { st with
          cmap := M ++ [(i, { pc with values := some (pc.values.getD [] ++ vs) })] } := by
  intro vs
  induction vs with
  | nil =>
    intro st M pc hcmap hM hpres _
    obtain ⟨l, hl⟩ := Option.isSome_iff_exists.mp hpres
    rw [List.map_nil, List.foldlM_nil, List.append_nil]
    rw [show (some (pc.values.getD []) : Option (List JStr)) = pc.values from by rw [hl]; rfl]
    rw [show ({ pc with values := pc.values } : PartialCrit) = pc from rfl]
    rw [← hcmap, decState_eta]
    rfl
  | cons v vs ih =>
    intro st M pc hcmap hM hpres hsane
    have hv := valueSane_decode v (hsane v (by simp))
    rw [List.map_cons, List.foldlM_cons]
    rw [show stepFn st (preValues ++ natRepr i, v) = decodeStep st (preValues ++ natRepr i) v
      from rfl]
    rw [decodeStep_valname st i v v hv.1, hcmap, mapUpdate_last i pc _ _ M hM, hv.2]
    simp only [Option.bind_eq_bind, Option.some_bind]
    rw [ih ({ st with cmap := M ++ [(i, { pc with values := some (pc.values.getD [] ++ [v]) })] })
        M ({ pc with values := some (pc.values.getD [] ++ [v]) }) rfl hM (by simp)
        (fun x hx => hsane x (by simp [hx]))]
    rw [show ({ pc with values := some (pc.values.getD [] ++ [v]) } : PartialCrit).values.getD []
        = pc.values.getD [] ++ [v] from rfl]
    have hassoc : (pc.values.getD [] ++ [v]) ++ vs = pc.values.getD [] ++ v :: vs := by simp
    rw [hassoc]

theorem fold_one_crit (i : Nat) (c : Criteria) (st : DecState) (M : List (Nat × PartialCrit))
    (hcmap : st.cmap = M) (hM : ∀ e ∈ M, e.1 ≠ i) (hc : CritSane c) :
    ((preKey ++ natRepr i, c.key) :: (preOperation ++ natRepr i, c.operation) ::
        c.values.map (fun v => (preValues ++ natRepr i, v))).foldlM stepFn st =
      some { st with cmap := M ++ [(i, builtEntry c)] } := by
  obtain ⟨v0, vrest, hvals⟩ : ∃ v0 vrest, c.values = v0 :: vrest := by
    cases hv : c.values with
    | nil => exact absurd hv hc.2.2.1
    | cons v0 vrest => exact ⟨v0, vrest, rfl⟩
  have hsane0 := valueSane_decode v0 (hc.2.2.2 v0 (by rw [hvals]; simp))
  rw [List.foldlM_cons]
  rw [show stepFn st (preKey ++ natRepr i, c.key) = decodeStep st (preKey ++ natRepr i) c.key
    from rfl]
  rw [decodeStep_keyname, hcmap, mapUpdate_fresh i _ _ M hM]
  simp only [Option.bind_eq_bind, Option.some_bind]
  rw [List.foldlM_cons]
  rw [show stepFn { st with cmap := M ++ [(i, ({ key := some c.key } : PartialCrit))] }
      (preOperation ++ natRepr i, c.operation)
      = decodeStep { st with cmap := M ++ [(i, ({ key := some c.key } : PartialCrit))] }
        (preOperation ++ natRepr i) c.operation from rfl]
  rw [decodeStep_opname]
  rw [show ({ st with cmap := M ++ [(i, ({ key := some c.key } : PartialCrit))] } :
      DecState).cmap = M ++ [(i, ({ key := some c.key } : PartialCrit))] from rfl]
  rw [mapUpdate_last i _ _ _ M hM]
  simp only [Option.bind_eq_bind, Option.some_bind]
  rw [hvals, List.map_cons, List.foldlM_cons]
  rw [show stepFn _ (preValues ++ natRepr i, v0) = decodeStep _ (preValues ++ natRepr i) v0
    from rfl]
  rw [decodeStep_valname _ i v0 v0 hsane0.1]
  rw [show ({ st with cmap := M ++ [(i, ({ key := some c.key, operation := some c.operation } :
      PartialCrit))] } : DecState).cmap
      = M ++ [(i, ({ key := some c.key, operation := some c.operation } : PartialCrit))]
    from rfl]
  rw [mapUpdate_last i _ _ _ M hM, hsane0.2]
  simp only [Option.bind_eq_bind, Option.some_bind]
  rw [fold_values_go i vrest _ M _ rfl hM (by simp)
    (fun x hx => hc.2.2.2 x (by rw [hvals]; simp [hx]))]
  rw [builtEntry, hvals]
  rfl

theorem fold_crit_block :
    ∀ (cs : List Criteria) (i0 : Nat) (st : DecState) (M : List (Nat × PartialCrit)),
      st.cmap = M → (∀ e ∈ M, e.1 < i0) → (∀ c ∈ cs, CritSane c) →
      (critParamsFrom i0 cs).foldlM stepFn st =
        some { st with
          cmap := M ++ (idxFrom i0 cs).map (fun p => (p.1, builtEntry p.2)) } := by
  intro cs
  induction cs with
  | nil =>
    intro i0 st M hcmap hM _
    rw [show critParamsFrom i0 [] = [] from rfl, List.foldlM_nil]
    rw [show idxFrom i0 ([] : List Criteria) = [] from rfl, List.map_nil, List.append_nil,
      ← hcmap, decState_eta]
    rfl
  | cons c cs ih =>
    intro i0 st M hcmap hM hsane
    rw [show critParamsFrom i0 (c :: cs)
        = ((preKey ++ natRepr i0, c.key) :: (preOperation ++ natRepr i0, c.operation) ::
            c.values.map (fun v => (preValues ++ natRepr i0, v))) ++ critParamsFrom (i0 + 1) cs
      from by
        rw [critParamsFrom, critParamsFrom, idxFrom, List.flatMap_cons]]
    rw [List.foldlM_append]
    rw [fold_one_crit i0 c st M hcmap (fun e he => by have := hM e he; omega) (hsane c (by simp))]
    simp only [Option.bind_eq_bind, Option.some_bind]
    rw [ih (i0 + 1) _ (M ++ [(i0, builtEntry c)]) rfl
      (fun e he => by
        rw [List.mem_append] at he
        rcases he with he | he
        · have := hM e he; omega
        · rw [List.mem_singleton] at he; subst he; simp)
      (fun x hx => hsane x (by simp [hx]))]
    rw [show idxFrom i0 (c :: cs) = (i0, c) :: idxFrom (i0 + 1) cs from rfl, List.map_cons]
    rw [List.append_assoc]
    rfl

theorem optArrParams_some (pre : JStr) (l : List (Option JStr)) :
    optArrParams pre (some l) = if 0 < l.length then optArrFrom pre 0 l else [] := rfl

theorem setSparse_append (L : List (Option JStr)) (v : JStr) :
    setSparse L L.length v = L ++ [some v] := by
  rw [setSparse, if_neg (by omega)]
  simp

theorem optArrFrom_cons (pre : JStr) (i0 : Nat) (v : JStr) (l : List (Option JStr)) :
    optArrFrom pre i0 (some v :: l) = (pre ++ natRepr i0, v) :: optArrFrom pre (i0 + 1) l := rfl

theorem fold_select_block :
    ∀ (l : List (Option JStr)) (i0 : Nat) (st : DecState), (∀ e ∈ l, e ≠ none) →
      st.select.length = i0 →
      (optArrFrom (jstr "select") i0 l).foldlM stepFn st =
        some { st with select := st.select ++ l } := by
  intro l
  induction l with
  | nil =>
    intro i0 st _ _
    rw [show optArrFrom (jstr "select") i0 [] = [] from rfl, List.foldlM_nil, List.append_nil]
    rfl
  | cons e l ih =>
    intro i0 st hnh hlen
    obtain ⟨v, rfl⟩ : ∃ v, e = some v := by
      cases e with
      | none => exact absurd rfl (hnh none (by simp))
      | some v => exact ⟨v, rfl⟩
    rw [optArrFrom_cons, List.foldlM_cons]
    rw [show stepFn st (jstr "select" ++ natRepr i0, v)
      = decodeStep st (jstr "select" ++ natRepr i0) v from rfl]
    rw [decodeStep_selname, ← hlen, setSparse_append]
    simp only [Option.bind_eq_bind, Option.some_bind]
    rw [ih (st.select.length + 1) ({ st with select := st.select ++ [some v] })
      (fun x hx => hnh x (by simp [hx])) (by simp)]
    rw [List.append_assoc]
    rfl

theorem fold_selectAs_block :
    ∀ (l : List (Option JStr)) (i0 : Nat) (st : DecState), (∀ e ∈ l, e ≠ none) →
      st.selectAs.length = i0 →
      (optArrFrom (jstr "selectAs") i0 l).foldlM stepFn st =
        some { st with selectAs := st.selectAs ++ l } := by
  intro l
  induction l with
  | nil =>
    intro i0 st _ _
    rw [show optArrFrom (jstr "selectAs") i0 [] = [] from rfl, List.foldlM_nil, List.append_nil]
    rfl
  | cons e l ih =>
    intro i0 st hnh hlen
    obtain ⟨v, rfl⟩ : ∃ v, e = some v := by
      cases e with
      | none => exact absurd rfl (hnh none (by simp))
      | some v => exact ⟨v, rfl⟩
    rw [optArrFrom_cons, List.foldlM_cons]
    rw [show stepFn st (jstr "selectAs" ++ natRepr i0, v)
      = decodeStep st (jstr "selectAs" ++ natRepr i0) v from rfl]
    rw [decodeStep_selAsname, ← hlen, setSparse_append]
    simp only [Option.bind_eq_bind, Option.some_bind]
    rw [ih (st.selectAs.length + 1) ({ st with selectAs := st.selectAs ++ [some v] })
      (fun x hx => hnh x (by simp [hx])) (by simp)]
    rw [List.append_assoc]
    rfl

theorem fold_orderBy_block :
    ∀ (l : List (Option JStr)) (i0 : Nat) (st : DecState), (∀ e ∈ l, e ≠ none) →
      st.orderBy.length = i0 →
      (optArrFrom (jstr "orderBy") i0 l).foldlM stepFn st =
        some { st with orderBy := st.orderBy ++ l } := by
  intro l
  induction l with
  | nil =>
    intro i0 st _ _
    rw [show optArrFrom (jstr "orderBy") i0 [] = [] from rfl, List.foldlM_nil, List.append_nil]
    rfl
  | cons e l ih =>
    intro i0 st hnh hlen
    obtain ⟨v, rfl⟩ : ∃ v, e = some v := by
      cases e with
      | none => exact absurd rfl (hnh none (by simp))
      | some v => exact ⟨v, rfl⟩
    rw [optArrFrom_cons, List.foldlM_cons]
    rw [show stepFn st (jstr "orderBy" ++ natRepr i0, v)
      = decodeStep st (jstr "orderBy" ++ natRepr i0) v from rfl]
    rw [decodeStep_obname, ← hlen, setSparse_append]
    simp only [Option.bind_eq_bind, Option.some_bind]
    rw [ih (st.orderBy.length + 1) ({ st with orderBy := st.orderBy ++ [some v] })
      (fun x hx => hnh x (by simp [hx])) (by simp)]
    rw [List.append_assoc]
    rfl

theorem fold_orderByDirection_block :
    ∀ (l : List (Option JStr)) (i0 : Nat) (st : DecState), (∀ e ∈ l, e ≠ none) →
      st.orderByDirection.length = i0 →
      (optArrFrom (jstr "orderByDirection") i0 l).foldlM stepFn st =
        some { st with orderByDirection := st.orderByDirection ++ l } := by
  intro l
  induction l with
  | nil =>
    intro i0 st _ _
    rw [show optArrFrom (jstr "orderByDirection") i0 [] = [] from rfl, List.foldlM_nil,
      List.append_nil]
    rfl
  | cons e l ih =>
    intro i0 st hnh hlen
    obtain ⟨v, rfl⟩ : ∃ v, e = some v := by
      cases e with
      | none => exact absurd rfl (hnh none (by simp))
      | some v => exact ⟨v, rfl⟩
    rw [optArrFrom_cons, List.foldlM_cons]
    rw [show stepFn st (jstr "orderByDirection" ++ natRepr i0, v)
      = decodeStep st (jstr "orderByDirection" ++ natRepr i0) v from rfl]
    rw [decodeStep_obdname, ← hlen, setSparse_append]
    simp only [Option.bind_eq_bind, Option.some_bind]
    rw [ih (st.orderByDirection.length + 1)
      ({ st with orderByDirection := st.orderByDirection ++ [some v] })
      (fun x hx => hnh x (by simp [hx])) (by simp)]
    rw [List.append_assoc]
    rfl

theorem fold_num_block (name : JStr) (o : Option (Option Int)) (st : DecState)
    (hhead : name.head? = some 'p') :
    (numParam name o).foldlM stepFn st = some st := by
  cases o with
  | none => rfl
  | some v =>
    rw [numParam, List.foldlM_cons]
    rw [show stepFn st (name, numToStr v) = decodeStep st name (numToStr v) from rfl]
    rw [decodeStep_pagename st name (numToStr v) hhead]
    simp only [Option.bind_eq_bind, Option.some_bind, List.foldlM_nil]
    rfl

theorem matureOne_built (c : Criteria) (hk : c.key.isEmpty = false)
    (hop : c.operation.isEmpty = false) : matureOne (builtEntry c) = some c := by
  show (if !c.key.isEmpty && !c.operation.isEmpty then
      some (Criteria.mk c.key c.operation c.values) else none) = some c
  rw [hk, hop]
  rfl

theorem isEmpty_false_of_ne_nil {l : JStr} (h : l ≠ []) : l.isEmpty = false := by
  cases hl : l with
  | nil => exact absurd hl h
  | cons a t => rfl

theorem maturedCriteria_built :
    ∀ (cs : List Criteria) (i0 : Nat), (∀ c ∈ cs, c.key ≠ [] ∧ c.operation ≠ []) →
      maturedCriteria ((idxFrom i0 cs).map (fun p => (p.1, builtEntry p.2))) = cs := by
  intro cs
  induction cs with
  | nil => intro i0 _; rfl
  | cons c cs ih =>
    intro i0 h
    have hc := h c (by simp)
    have h1 := matureOne_built c (isEmpty_false_of_ne_nil hc.1) (isEmpty_false_of_ne_nil hc.2)
    have ih' := ih (i0 + 1) (fun x hx => h x (by simp [hx]))
    rw [show idxFrom i0 (c :: cs) = (i0, c) :: idxFrom (i0 + 1) cs from rfl, List.map_cons]
    rw [maturedCriteria, List.filterMap_cons]
    rw [maturedCriteria] at ih'
    simp only [h1, ih']

theorem listFind_append_none (xs ys : List (JStr × JStr)) (name : JStr)
    (h : ∀ p ∈ xs, p.1 ≠ name) : listFind (xs ++ ys) name = listFind ys name := by
  simp only [listFind, List.find?_append]
  rw [show List.find? (fun p => p.1 == name) xs = none from List.find?_eq_none.mpr
    (fun x hx => by simp only [beq_iff_eq]; simpa using h x hx)]
  rw [Option.none_or]

theorem ne_of_head_ne (a b : JStr) (h : a.head? ≠ b.head?) : a ≠ b :=
  fun e => h (congrArg List.head? e)

theorem critParamsFrom_names (i0 : Nat) (cs : List Criteria) :
    ∀ p ∈ critParamsFrom i0 cs, ∃ c, p.1.head? = some c ∧ (c = 'k' ∨ c = 'o' ∨ c = 'v') := by
  intro p hp
  rw [critParamsFrom, List.mem_flatMap] at hp
  obtain ⟨x, _, hpx⟩ := hp
  rw [List.mem_cons, List.mem_cons] at hpx
  rcases hpx with rfl | rfl | hpx
  · exact ⟨'k', rfl, Or.inl rfl⟩
  · exact ⟨'o', rfl, Or.inr (Or.inl rfl)⟩
  · rw [List.mem_map] at hpx
    obtain ⟨v, _, rfl⟩ := hpx
    exact ⟨'v', rfl, Or.inr (Or.inr rfl)⟩

theorem optArrFrom_names (pre : JStr) (i0 : Nat) (l : List (Option JStr)) :
    ∀ p ∈ optArrFrom pre i0 l, ∃ t, p.1 = pre ++ t := by
  intro p hp
  rw [optArrFrom, List.mem_filterMap] at hp
  obtain ⟨x, _, hxp⟩ := hp
  cases hx2 : x.2 with
  | none => rw [hx2] at hxp; simp at hxp
  | some v =>
    rw [hx2] at hxp
    simp only [Option.map_some'] at hxp
    injection hxp with h
    exact ⟨natRepr x.1, by rw [← h]⟩

theorem toQueryParams_assoc (q : DynamicQuery) :
    toQueryParams q = critParams q.criteria ++ (optArrParams (jstr "select") q.select ++
      (optArrParams (jstr "selectAs") q.selectAs ++ (optArrParams (jstr "orderBy") q.orderBy ++
        (optArrParams (jstr "orderByDirection") q.orderByDirection ++
          (numParam (jstr "page") q.page ++ numParam (jstr "pageSize") q.pageSize))))) := by
  rw [toQueryParams]
  simp only [List.append_assoc]

/-- Full effect of the decoder fold on an encoded query: the criteria map
holds one fully built entry per criterion in position order, and each sparse
array is exactly the encoded array. -/
theorem decodeFold_toQueryParams (q : DynamicQuery)
    (hcrit : ∀ c ∈ q.criteria, CritSane c) (hnh : NoHoles q) :
    decodeFold (toQueryParams q) =
      some { cmap := (idxFrom 0 q.criteria).map (fun p => (p.1, builtEntry p.2)),
             select := q.select.getD [], selectAs := q.selectAs.getD [],
             orderBy := q.orderBy.getD [], orderByDirection := q.orderByDirection.getD [] } := by
  have hB1 : ∀ st : DecState, st.select = [] →
      (optArrParams (jstr "select") q.select).foldlM stepFn st =
        some { st with select := q.select.getD [] } := by
    intro st hsel
    cases hqs : q.select with
    | none =>
      rw [show optArrParams (jstr "select") none = [] from rfl, List.foldlM_nil]
      rw [show (none : Option (List (Option JStr))).getD [] = [] from rfl, ← hsel, decState_eta]
      rfl
    | some l =>
      cases l with
      | nil =>
        rw [optArrParams_some, if_neg (by simp), List.foldlM_nil]
        rw [show (some ([] : List (Option JStr))).getD [] = [] from rfl, ← hsel, decState_eta]
        rfl
      | cons e t =>
        rw [optArrParams_some, if_pos (by simp)]
        rw [fold_select_block (e :: t) 0 st (hnh.1 (e :: t) hqs) (by rw [hsel]; rfl)]
        rw [hsel, List.nil_append]
        rfl
  have hB2 : ∀ st : DecState, st.selectAs = [] →
      (optArrParams (jstr "selectAs") q.selectAs).foldlM stepFn st =
        some { st with selectAs := q.selectAs.getD [] } := by
    intro st hsel
    cases hqs : q.selectAs with
    | none =>
      rw [show optArrParams (jstr "selectAs") none = [] from rfl, List.foldlM_nil]
      rw [show (none : Option (List (Option JStr))).getD [] = [] from rfl, ← hsel, decState_eta]
      rfl
    | some l =>
      cases l with
      | nil =>
        rw [optArrParams_some, if_neg (by simp), List.foldlM_nil]
        rw [show (some ([] : List (Option JStr))).getD [] = [] from rfl, ← hsel, decState_eta]
        rfl
      | cons e t =>
        rw [optArrParams_some, if_pos (by simp)]
        rw [fold_selectAs_block (e :: t) 0 st (hnh.2.1 (e :: t) hqs) (by rw [hsel]; rfl)]
        rw [hsel, List.nil_append]
        rfl
  have hB3 : ∀ st : DecState, st.orderBy = [] →
      (optArrParams (jstr "orderBy") q.orderBy).foldlM stepFn st =
        some { st with orderBy := q.orderBy.getD [] } := by
    intro st hsel
    cases hqs : q.orderBy with
    | none =>
      rw [show optArrParams (jstr "orderBy") none = [] from rfl, List.foldlM_nil]
      rw [show (none : Option (List (Option JStr))).getD [] = [] from rfl, ← hsel, decState_eta]
      rfl
    | some l =>
      cases l with
      | nil =>
        rw [optArrParams_some, if_neg (by simp), List.foldlM_nil]
        rw [show (some ([] : List (Option JStr))).getD [] = [] from rfl, ← hsel, decState_eta]
        rfl
      | cons e t =>
        rw [optArrParams_some, if_pos (by simp)]
        rw [fold_orderBy_block (e :: t) 0 st (hnh.2.2.1 (e :: t) hqs) (by rw [hsel]; rfl)]
        rw [hsel, List.nil_append]
        rfl
  have hB4 : ∀ st : DecState, st.orderByDirection = [] →
      (optArrParams (jstr "orderByDirection") q.orderByDirection).foldlM stepFn st =
        some { st with orderByDirection := q.orderByDirection.getD [] } := by
    intro st hsel
    cases hqs : q.orderByDirection with
    | none =>
      rw [show optArrParams (jstr "orderByDirection") none = [] from rfl, List.foldlM_nil]
      rw [show (none : Option (List (Option JStr))).getD [] = [] from rfl, ← hsel, decState_eta]
      rfl
    | some l =>
      cases l with
      | nil =>
        rw [optArrParams_some, if_neg (by simp), List.foldlM_nil]
        rw [show (some ([] : List (Option JStr))).getD [] = [] from rfl, ← hsel, decState_eta]
        rfl
      | cons e t =>
        rw [optArrParams_some, if_pos (by simp)]
        rw [fold_orderByDirection_block (e :: t) 0 st (hnh.2.2.2 (e :: t) hqs)
          (by rw [hsel]; rfl)]
        rw [hsel, List.nil_append]
        rfl
  rw [decodeFold_eq, toQueryParams_assoc]
  rw [List.foldlM_append]
  rw [critParams_eq_from, fold_crit_block q.criteria 0 initState [] rfl (by simp) hcrit]
  simp only [Option.bind_eq_bind, Option.some_bind]
  rw [List.foldlM_append, hB1 _ rfl]
  simp only [Option.bind_eq_bind, Option.some_bind]
  rw [List.foldlM_append, hB2 _ rfl]
  simp only [Option.bind_eq_bind, Option.some_bind]
  rw [List.foldlM_append, hB3 _ rfl]
  simp only [Option.bind_eq_bind, Option.some_bind]
  rw [List.foldlM_append, hB4 _ rfl]
  simp only [Option.bind_eq_bind, Option.some_bind]
  rw [List.foldlM_append, fold_num_block (jstr "page") q.page _ rfl]
  simp only [Option.bind_eq_bind, Option.some_bind]
  rw [fold_num_block (jstr "pageSize") q.pageSize _ rfl]
  rfl

theorem listFind_numParam_ne (name other : JStr) (o : Option (Option Int))
    (h : name ≠ other) : listFind (numParam name o) other = none := by
  cases o with
  | none => rfl
  | some v =>
    simp only [listFind, numParam, List.find?_cons]
    rw [show (((name, numToStr v) : JStr × JStr).1 == other) = false from
      beq_eq_false_iff_ne.mpr h]
    rfl

theorem listFind_numParam_self (name : JStr) (o : Option (Option Int)) :
    listFind (numParam name o) name = o.map numToStr := by
  cases o with
  | none => rfl
  | some v =>
    simp only [listFind, numParam, List.find?_cons]
    rw [show (((name, numToStr v) : JStr × JStr).1 == name) = true from beq_iff_eq.mpr rfl]
    rfl

theorem toQueryParams_blocks_ne_p (q : DynamicQuery) (name : JStr)
    (hname : name.head? = some 'p') :
    ∀ p ∈ critParams q.criteria ++ (optArrParams (jstr "select") q.select ++
        (optArrParams (jstr "selectAs") q.selectAs ++ (optArrParams (jstr "orderBy") q.orderBy ++
          optArrParams (jstr "orderByDirection") q.orderByDirection))),
      p.1 ≠ name := by
  intro p hp
  simp only [List.mem_append] at hp
  rcases hp with hp | hp | hp | hp | hp
  · obtain ⟨c, hc, hcv⟩ := critParamsFrom_names 0 q.criteria p (by
      rw [← critParams_eq_from]; exact hp)
    refine ne_of_head_ne _ _ ?_
    rw [hc, hname]
    rcases hcv with rfl | rfl | rfl <;> decide
  · cases hqs : q.select with
    | none => rw [hqs] at hp; simp [optArrParams] at hp
    | some l =>
      rw [hqs, optArrParams_some] at hp
      by_cases hl : 0 < l.length
      · rw [if_pos hl] at hp
        obtain ⟨t, ht⟩ := optArrFrom_names _ 0 l p hp
        refine ne_of_head_ne _ _ ?_
        rw [ht, head_of_append_jstr "select" 's' rfl, hname]
        decide
      · rw [if_neg hl] at hp; simp at hp
  · cases hqs : q.selectAs with
    | none => rw [hqs] at hp; simp [optArrParams] at hp
    | some l =>
      rw [hqs, optArrParams_some] at hp
      by_cases hl : 0 < l.length
      · rw [if_pos hl] at hp
        obtain ⟨t, ht⟩ := optArrFrom_names _ 0 l p hp
        refine ne_of_head_ne _ _ ?_
        rw [ht, head_of_append_jstr "selectAs" 's' rfl, hname]
        decide
      · rw [if_neg hl] at hp; simp at hp
  · cases hqs : q.orderBy with
    | none => rw [hqs] at hp; simp [optArrParams] at hp
    | some l =>
      rw [hqs, optArrParams_some] at hp
      by_cases hl : 0 < l.length
      · rw [if_pos hl] at hp
        obtain ⟨t, ht⟩ := optArrFrom_names _ 0 l p hp
        refine ne_of_head_ne _ _ ?_
        rw [ht, head_of_append_jstr "orderBy" 'o' rfl, hname]
        decide
      · rw [if_neg hl] at hp; simp at hp
  · cases hqs : q.orderByDirection with
    | none => rw [hqs] at hp; simp [optArrParams] at hp
    | some l =>
      rw [hqs, optArrParams_some] at hp
      by_cases hl : 0 < l.length
      · rw [if_pos hl] at hp
        obtain ⟨t, ht⟩ := optArrFrom_names _ 0 l p hp
        refine ne_of_head_ne _ _ ?_
        rw [ht, head_of_append_jstr "orderByDirection" 'o' rfl, hname]
        decide
      · rw [if_neg hl] at hp; simp at hp

theorem listFind_toQueryParams_page (q : DynamicQuery) :
    listFind (toQueryParams q) (jstr "page") = q.page.map numToStr := by
  rw [toQueryParams_assoc]
  rw [show critParams q.criteria ++ (optArrParams (jstr "select") q.select ++
      (optArrParams (jstr "selectAs") q.selectAs ++ (optArrParams (jstr "orderBy") q.orderBy ++
        (optArrParams (jstr "orderByDirection") q.orderByDirection ++
          (numParam (jstr "page") q.page ++ numParam (jstr "pageSize") q.pageSize)))))
      = (critParams q.criteria ++ (optArrParams (jstr "select") q.select ++
        (optArrParams (jstr "selectAs") q.selectAs ++ (optArrParams (jstr "orderBy") q.orderBy ++
          optArrParams (jstr "orderByDirection") q.orderByDirection)))) ++
        (numParam (jstr "page") q.page ++ numParam (jstr "pageSize") q.pageSize) from by
      simp [List.append_assoc]]
  rw [listFind_append_none _ _ _ (toQueryParams_blocks_ne_p q (jstr "page") rfl)]
  cases hqp : q.page with
  | none =>
    rw [show numParam (jstr "page") none = [] from rfl, List.nil_append]
    rw [listFind_numParam_ne (jstr "pageSize") (jstr "page") q.pageSize (by decide)]
    rfl
  | some v =>
    rw [show numParam (jstr "page") (some v) ++ numParam (jstr "pageSize") q.pageSize
        = (jstr "page", numToStr v) :: numParam (jstr "pageSize") q.pageSize from rfl]
    simp only [listFind, List.find?_cons]
    rw [show (((jstr "page", numToStr v) : JStr × JStr).1 == jstr "page") = true from
      beq_iff_eq.mpr rfl]
    rfl

theorem listFind_toQueryParams_pageSize (q : DynamicQuery) :
    listFind (toQueryParams q) (jstr "pageSize") = q.pageSize.map numToStr := by
  rw [toQueryParams_assoc]
  rw [show critParams q.criteria ++ (optArrParams (jstr "select") q.select ++
      (optArrParams (jstr "selectAs") q.selectAs ++ (optArrParams (jstr "orderBy") q.orderBy ++
        (optArrParams (jstr "orderByDirection") q.orderByDirection ++
          (numParam (jstr "page") q.page ++ numParam (jstr "pageSize") q.pageSize)))))
      = (critParams q.criteria ++ (optArrParams (jstr "select") q.select ++
        (optArrParams (jstr "selectAs") q.selectAs ++ (optArrParams (jstr "orderBy") q.orderBy ++
          optArrParams (jstr "orderByDirection") q.orderByDirection)))) ++
        (numParam (jstr "page") q.page ++ numParam (jstr "pageSize") q.pageSize) from by
      simp [List.append_assoc]]
  rw [listFind_append_none _ _ _ (toQueryParams_blocks_ne_p q (jstr "pageSize") rfl)]
  rw [show numParam (jstr "page") q.page ++ numParam (jstr "pageSize") q.pageSize
      = numParam (jstr "page") q.page ++ numParam (jstr "pageSize") q.pageSize from rfl]
  rw [listFind_append_none _ _ _ (fun p hp => by
    cases hqp : q.page with
    | none => rw [hqp] at hp; simp [numParam] at hp
    | some v =>
      rw [hqp] at hp
      rw [show numParam (jstr "page") (some v) = [(jstr "page", numToStr v)] from rfl] at hp
      rw [List.mem_singleton] at hp
      subst hp
      exact (by decide : jstr "page" ≠ jstr "pageSize"))]
  exact listFind_numParam_self (jstr "pageSize") q.pageSize

/-- C1 (amended): for every `DynamicQuery` whose criteria all have a
non-empty `values` sequence, a non-empty `key` and a non-empty `operation`
(the `CriteriaOperation` enum has only non-empty members), and whose values
contain no `%` character and no `"&&"` substring, decoding the encoding
yields the query back up to omission of empty optional arrays. The original
claim, which allowed `%` and `"&&"` inside values, is refuted by
`c1_round_trip_counterexample`: `fromQueryString` re-applies
`decodeURIComponent` to every `values{i}` parameter and then splits on the
literal `"&&"`, so such values are altered (or even throw). -/
theorem c1_round_trip_amended (q : DynamicQuery)
    (hne : ∀ c ∈ q.criteria, c.values ≠ [])
    (hkey : ∀ c ∈ q.criteria, c.key ≠ [])
    (hop : ∀ c ∈ q.criteria, c.operation ≠ [])
    (hval : ∀ c ∈ q.criteria, ∀ v ∈ c.values, (∀ ch ∈ v, ch ≠ '%') ∧ ¬ ['&', '&'] <:+: v)
    (hholes : NoHoles q) :
    fromQueryString (toQueryString q) = some (normalizeEmpties q) := by
  have hcrit : ∀ c ∈ q.criteria, CritSane c :=
    fun c hc => ⟨hkey c hc, hop c hc, hne c hc, fun v hv => hval c hc v hv⟩
  rw [toQueryString, fromQueryString, parseParams_serializeParams]
  rw [decodeFold_toQueryParams q hcrit hholes]
  simp only [Option.map_some']
  rw [maturedCriteria_built q.criteria 0 (fun c hc => ⟨hkey c hc, hop c hc⟩)]
  rw [listFind_toQueryParams_page, listFind_toQueryParams_pageSize]
  have hnum : ∀ o : Option (Option Int), (o.map numToStr).map jsParseInt = o := by
    intro o
    cases o with
    | none => rfl
    | some v => simp only [Option.map_some', jsParseInt_numToStr]
  have hfld : ∀ o : Option (List (Option JStr)),
      (if 0 < (o.getD []).length then some (o.getD []) else none) =
        (match o with | some [] => none | o => o) := by
    intro o
    rcases o with _ | (_ | ⟨e, t⟩)
    · rfl
    · rfl
    · rw [if_pos (by simp)]
      rfl
  rw [hnum q.page, hnum q.pageSize, hfld q.select, hfld q.selectAs, hfld q.orderBy,
    hfld q.orderByDirection]
  rfl

/-! ### Claim theorems -/

/-- C1, counterexample to the original claim: for the query with the single
criterion `{key: "a", operation: EQUAL, values: ["%41"]}` (non-empty values,
as the claim requires), `decode(encode(q))` is not `q`: the value comes back
as `"A"`, because `fromQueryString` applies `decodeURIComponent` to a value
that `URLSearchParams` has already decoded once. -/
theorem c1_round_trip_counterexample :
    fromQueryString (toQueryString
        { criteria := [Criteria.mk (jstr "a") (jstr "EQUAL") [jstr "%41"]] }) ≠
      some (normalizeEmpties
        { criteria := [Criteria.mk (jstr "a") (jstr "EQUAL") [jstr "%41"]] }) ∧
    fromQueryString (toQueryString
        { criteria := [Criteria.mk (jstr "a") (jstr "EQUAL") [jstr "%41"]] }) =
      some { criteria := [Criteria.mk (jstr "a") (jstr "EQUAL") [jstr "A"]] } := by
  constructor
  · decide
  · decide

/-- C1, witness: the amended round trip applied to a concrete query
exercising criteria, select, order and pagination. -/
theorem c1_round_trip_amended_witness :
    fromQueryString (toQueryString
        { criteria := [Criteria.mk (jstr "name") (jstr "CONTAIN") [jstr "test val"]],
          select := some [some (jstr "id")], orderBy := some [some (jstr "id")],
          orderByDirection := some [some (jstr "desc")],
          page := some (some 0), pageSize := some (some 20) }) =
      some (normalizeEmpties
        { criteria := [Criteria.mk (jstr "name") (jstr "CONTAIN") [jstr "test val"]],
          select := some [some (jstr "id")], orderBy := some [some (jstr "id")],
          orderByDirection := some [some (jstr "desc")],
          page := some (some 0), pageSize := some (some 20) }) :=
  c1_round_trip_amended _ (by decide) (by decide) (by decide) (by decide)
    ⟨fun l hl => by injection hl with h; subst h; decide,
     fun l hl => by simp at hl,
     fun l hl => by injection hl with h; subst h; decide,
     fun l hl => by injection hl with h; subst h; decide⟩

/-- C2, counterexample: encoding a query whose first criterion has empty
`values` still emits `key0=a&operation0=EQUAL` for it, and the second
criterion keeps index 1 — the claim's expected output
`key0=b&operation0=EQUAL&values0=1` (criterion skipped entirely, dense
renumbering) differs. -/
theorem c2_empty_values_counterexample :
    toQueryString { criteria := [Criteria.mk (jstr "a") (jstr "EQUAL") [],
        Criteria.mk (jstr "b") (jstr "EQUAL") [jstr "1"]] } =
      jstr "key0=a&operation0=EQUAL&key1=b&operation1=EQUAL&values1=1" ∧
    toQueryString { criteria := [Criteria.mk (jstr "a") (jstr "EQUAL") [],
        Criteria.mk (jstr "b") (jstr "EQUAL") [jstr "1"]] } ≠
      jstr "key0=b&operation0=EQUAL&values0=1" := by
  constructor
  · decide
  · decide

/-- C3, counterexample to totality: the syntactically valid query string
`values0=%` makes `fromQueryString` throw (`decodeURIComponent("%")` raises
`URIError`), modelled as `none`. -/
theorem c3_decode_total_counterexample : fromQueryString (jstr "values0=%") = none := by
  decide

/-- C4: `upsertCriteria` removes exactly the criteria matching both key and
operation, keeps the rest in order, and appends the new criterion; on the
claim's concrete example the `GREATER_THAN` criterion survives. The general
statement assumes a non-empty operation string, which every
`CriteriaOperation` enum member satisfies (an empty operation would be falsy
in `removeCriteria`, which then drops every criterion with the key). -/
theorem c4_upsert_criteria :
    (upsertCriteria { criteria := [Criteria.mk (jstr "age") (jstr "EQUAL") [jstr "10"],
          Criteria.mk (jstr "age") (jstr "GREATER_THAN") [jstr "5"]] }
        (jstr "age") (jstr "EQUAL") [jstr "20"]).criteria =
      [Criteria.mk (jstr "age") (jstr "GREATER_THAN") [jstr "5"],
        Criteria.mk (jstr "age") (jstr "EQUAL") [jstr "20"]] ∧
    ∀ (q : DynamicQuery) (k op : JStr) (vs : List JStr), op ≠ [] →
      (upsertCriteria q k op vs).criteria =
        q.criteria.filter (fun c => !(c.key == k && c.operation == op)) ++
          [Criteria.mk k op vs] := by
  constructor
  · decide
  · intro q k op vs hop
    rw [upsertCriteria, addCriteria, removeCriteria]
    have hpt : ∀ c : Criteria,
        ((c.key != k) || (jsTruthyOpt (some op) && (c.operation != (some op).getD []))) =
          !(c.key == k && c.operation == op) := by
      intro c
      rw [show jsTruthyOpt (some op) = !op.isEmpty from rfl, isEmpty_false_of_ne_nil hop]
      rw [show ((some op).getD [] : JStr) = op from rfl]
      cases hck : c.key == k <;> cases hco : c.operation == op <;>
        simp [bne, hck, hco]
    rw [List.filter_congr (fun c _ => hpt c)]

/-- C4, witness: the general clause instantiated on the claim's example. -/
theorem c4_upsert_criteria_witness :
    (upsertCriteria { criteria := [Criteria.mk (jstr "age") (jstr "EQUAL") [jstr "10"],
          Criteria.mk (jstr "age") (jstr "GREATER_THAN") [jstr "5"]] }
        (jstr "age") (jstr "EQUAL") [jstr "20"]).criteria =
      ([Criteria.mk (jstr "age") (jstr "EQUAL") [jstr "10"],
          Criteria.mk (jstr "age") (jstr "GREATER_THAN") [jstr "5"]].filter
        (fun c => !(c.key == jstr "age" && c.operation == jstr "EQUAL"))) ++
        [Criteria.mk (jstr "age") (jstr "EQUAL") [jstr "20"]] :=
  c4_upsert_criteria.2
    { criteria := [Criteria.mk (jstr "age") (jstr "EQUAL") [jstr "10"],
        Criteria.mk (jstr "age") (jstr "GREATER_THAN") [jstr "5"]] }
    (jstr "age") (jstr "EQUAL") [jstr "20"] (by decide)

/-- C5, counterexample to ascending-index ordering: decoding a string whose
index-10 fragments precede its index-2 fragments yields the index-10
criterion (key `"a"`) first — the decoder iterates the criteria map in
insertion order and never sorts by index. -/
theorem c5_order_counterexample :
    fromQueryString
        (jstr "key10=a&operation10=EQUAL&values10=x&key2=b&operation2=EQUAL&values2=y") =
      some { criteria := [Criteria.mk (jstr "a") (jstr "EQUAL") [jstr "x"],
        Criteria.mk (jstr "b") (jstr "EQUAL") [jstr "y"]] } := by
  decide

/-- C6, counterexample: in the literal query string
`key0=tags&operation0=EQUAL&values0=a&&b&&c`, the unescaped `&` characters
are parameter separators for `URLSearchParams`, so the criterion's values
are just `["a"]` (with stray parameters `b` and `c` ignored), not
`["a","b","c"]` as the claim states. -/
theorem c6_ampamp_counterexample :
    fromQueryString (jstr "key0=tags&operation0=EQUAL&values0=a&&b&&c") =
      some { criteria := [Criteria.mk (jstr "tags") (jstr "EQUAL") [jstr "a"]] } ∧
    fromQueryString (jstr "key0=tags&operation0=EQUAL&values0=a&&b&&c") ≠
      some { criteria := [Criteria.mk (jstr "tags") (jstr "EQUAL")
        [jstr "a", jstr "b", jstr "c"]] } := by
  constructor
  · decide
  · decide

/-- C6 (amended): the `&&`-joined in-value multi-value form is decoded into
separate array elements when the ampersands reach the `values0` value —
i.e. percent-encoded in the query string: decoding
`key0=tags&operation0=EQUAL&values0=a%26%26b%26%26c` yields the single
criterion `{key: "tags", operation: EQUAL, values: ["a","b","c"]}`. -/
theorem c6_ampamp_amended :
    fromQueryString (jstr "key0=tags&operation0=EQUAL&values0=a%26%26b%26%26c") =
      some { criteria := [Criteria.mk (jstr "tags") (jstr "EQUAL")
        [jstr "a", jstr "b", jstr "c"]] } := by
  decide

/-- C8, counterexample: decoding `page=x` (a `page` parameter present but
not parseable as an integer) yields `page = NaN` (modelled `some none`),
not an absent/undefined `page` as the claim states. -/
theorem c8_nan_counterexample :
    fromQueryString (jstr "page=x") = some { criteria := [], page := some none } ∧
    (some (none : Option Int) : Option (Option Int)) ≠ none := by
  constructor
  · decide
  · decide

/-- C10: a `QueryBuilder` constructed with no initial query owns
`{criteria: [], page: 0, pageSize: 20}`, and `clear()` resets any owned
query to exactly that value; the default `pageSize` is the constant 20 and
neither operation takes a caller-chosen page size. -/
theorem c10_default_and_clear :
    newQueryBuilder none =
      { criteria := [], page := some (some 0), pageSize := some (some 20) } ∧
    ∀ q : DynamicQuery, clear q =
      { criteria := [], page := some (some 0), pageSize := some (some 20) } := by
  exact ⟨rfl, fun q => rfl⟩

theorem fromQueryString_fields (s : JStr) (q : DynamicQuery) (h : fromQueryString s = some q) :
    q.page = (listFind (parseParams s) (jstr "page")).map jsParseInt ∧
    q.pageSize = (listFind (parseParams s) (jstr "pageSize")).map jsParseInt ∧
    ∃ st, decodeFold (parseParams s) = some st ∧ q.criteria = maturedCriteria st.cmap := by
  rw [fromQueryString] at h
  cases hf : decodeFold (parseParams s) with
  | none => rw [hf] at h; simp at h
  | some st =>
    rw [hf] at h
    simp only [Option.map_some'] at h
    injection h with h
    subst h
    exact ⟨rfl, rfl, st, rfl, rfl⟩

/-- C8 (amended): when the `page` (respectively `pageSize`) parameter is
present but its value does not parse as an integer, the decoded query's
field is `NaN` (present, modelled `some none`) — not absent/undefined as
the claim states (`params.has(..) ? parseInt(..) : undefined` stores the
`NaN` produced by `parseInt`). -/
theorem c8_nan_page :
    ∀ (s : JStr) (q : DynamicQuery) (v : JStr), fromQueryString s = some q →
      (listFind (parseParams s) (jstr "page") = some v → jsParseInt v = none →
        q.page = some none) ∧
      (listFind (parseParams s) (jstr "pageSize") = some v → jsParseInt v = none →
        q.pageSize = some none) := by
  intro s q v h
  obtain ⟨hp, hps, _⟩ := fromQueryString_fields s q h
  exact ⟨fun hf hn => by rw [hp, hf, Option.map_some', hn],
         fun hf hn => by rw [hps, hf, Option.map_some', hn]⟩

/-- C8, witness: decoding `page=x` stores `NaN` in `page`. -/
theorem c8_nan_page_witness :
    fromQueryString (jstr "page=x") =
      some { criteria := [], page := some none } ∧
    ({ criteria := [], page := some none } : DynamicQuery).page = some none :=
  ⟨by decide,
   (c8_nan_page (jstr "page=x") { criteria := [], page := some none } (jstr "x")
      (by decide)).1 (by decide) (by decide)⟩

theorem decodeFold_total :
    ∀ (params : List (JStr × JStr)) (st0 : DecState),
      (∀ p ∈ params, matchIdx preValues p.1 ≠ none → (decodeURIComponent p.2).isSome) →
      (params.foldlM stepFn st0).isSome := by
  intro params
  induction params with
  | nil => intro st0 _; rfl
  | cons p rest ih =>
    intro st0 h
    rw [List.foldlM_cons]
    have hstep : ∃ st1, stepFn st0 p = some st1 := by
      rw [show stepFn st0 p = decodeStep st0 p.1 p.2 from rfl, decodeStep]
      cases hk : matchIdx preKey p.1 with
      | some i => rw [critStep, hk]; exact ⟨_, rfl⟩
      | none =>
        cases ho : matchIdx preOperation p.1 with
        | some i => rw [critStep, hk, ho]; exact ⟨_, rfl⟩
        | none =>
          cases hv : matchIdx preValues p.1 with
          | none => rw [critStep, hk, ho, hv]; exact ⟨_, rfl⟩
          | some i =>
            obtain ⟨dv, hdv⟩ :=
              Option.isSome_iff_exists.mp (h p (by simp) (by rw [hv]; simp))
            rw [critStep, hk, ho, hv, hdv]
            exact ⟨_, rfl⟩
    obtain ⟨st1, hst1⟩ := hstep
    rw [hst1]
    simp only [Option.bind_eq_bind, Option.some_bind]
    exact ih st1 (fun x hx hm => h x (by simp [hx]) hm)

/-- C3 (amended): decoding never throws provided every `values{i}`
parameter's (once-decoded) value is a well-formed URI component; the only
throwing operation in `fromQueryString` is the `decodeURIComponent` call on
`values{i}` values, and numeric parse failures never throw. The original
totality claim is refuted by `c3_decode_total_counterexample`
(`values0=%`). -/
theorem c3_decode_total_amended :
    ∀ s : JStr,
      (∀ p ∈ parseParams s, matchIdx preValues p.1 ≠ none → (decodeURIComponent p.2).isSome) →
      (fromQueryString s).isSome := by
  intro s h
  rw [fromQueryString]
  have htot := decodeFold_total (parseParams s) initState h
  obtain ⟨st, hst⟩ := Option.isSome_iff_exists.mp htot
  rw [show decodeFold (parseParams s) = some st from hst]
  rfl

/-- C3, witness: a well-formed input decodes successfully. -/
theorem c3_decode_total_amended_witness :
    (∀ p ∈ parseParams (jstr "key0=a&operation0=EQUAL&values0=x"),
      matchIdx preValues p.1 ≠ none → (decodeURIComponent p.2).isSome) ∧
    (fromQueryString (jstr "key0=a&operation0=EQUAL&values0=x")).isSome :=
  ⟨by decide, c3_decode_total_amended _ (by decide)⟩

theorem ne_nil_of_isEmpty_false {l : JStr} (h : l.isEmpty = false) : l ≠ [] := by
  intro he
  subst he
  simp at h

theorem sAAA_ne_nil (f : Nat) (s : JStr) : sAAA f s ≠ [] := by
  cases f with
  | zero => cases s <;> simp [sAAA]
  | succ f =>
    cases s with
    | nil => simp [sAAA]
    | cons c rest =>
      rw [sAAA]
      by_cases h : c = '&' ∧ rest.head? = some '&'
      · rw [if_pos h]; simp
      · rw [if_neg h]
        cases hs : sAAA f rest <;> simp

theorem splitAmpAmp_ne_nil (s : JStr) : splitAmpAmp s ≠ [] := sAAA_ne_nil s.length s

theorem mapUpdate_forall (P : PartialCrit → Prop) (i : Nat) (f : PartialCrit → PartialCrit)
    (init : PartialCrit) (hf : ∀ pc, P pc → P (f pc)) (hi : P (f init)) :
    ∀ m : List (Nat × PartialCrit), (∀ e ∈ m, P e.2) →
      ∀ e ∈ mapUpdate m i f init, P e.2 := by
  intro m
  induction m with
  | nil =>
    intro _ e he
    rw [mapUpdate] at he
    simp at he
    rw [he]
    exact hi
  | cons jq rest ih =>
    intro hm e he
    obtain ⟨j, q⟩ := jq
    rw [mapUpdate] at he
    by_cases hj : j = i
    · rw [if_pos hj] at he
      rcases List.mem_cons.mp he with h1 | h2
      · rw [h1]
        exact hf q (hm (j, q) (by simp))
      · exact hm e (by simp [h2])
    · rw [if_neg hj] at he
      rcases List.mem_cons.mp he with h1 | h2
      · exact hm e (by simp [h1])
      · exact ih (fun x hx => hm x (by simp [hx])) e h2

theorem applySelects_cmap (st : DecState) (n v : JStr) : (applySelects st n v).cmap = st.cmap := by
  rw [applySelects]
  cases matchIdx (jstr "select") n <;> cases matchIdx (jstr "selectAs") n <;>
    cases matchIdx (jstr "orderBy") n <;> cases matchIdx (jstr "orderByDirection") n <;> rfl

theorem critStep_valuesNE (st : DecState) (n v : JStr) (st1 : DecState)
    (hinv : ∀ e ∈ st.cmap, ValuesNE e.2) (h : critStep st n v = some st1) :
    ∀ e ∈ st1.cmap, ValuesNE e.2 := by
  rw [critStep] at h
  cases hk : matchIdx preKey n with
  | some i =>
    rw [hk] at h
    injection h with h
    rw [← h]
    refine mapUpdate_forall ValuesNE i _ {} ?_ ?_ st.cmap hinv
    · intro pc hpc vs hvs
      exact hpc vs hvs
    · intro vs hvs
      simp at hvs
  | none =>
    rw [hk] at h
    cases ho : matchIdx preOperation n with
    | some i =>
      rw [ho] at h
      injection h with h
      rw [← h]
      refine mapUpdate_forall ValuesNE i _ {} ?_ ?_ st.cmap hinv
      · intro pc hpc vs hvs
        exact hpc vs hvs
      · intro vs hvs
        simp at hvs
    | none =>
      rw [ho] at h
      cases hv : matchIdx preValues n with
      | none =>
        rw [hv] at h
        injection h with h
        rw [← h]
        exact hinv
      | some i =>
        rw [hv] at h
        cases hd : decodeURIComponent v with
        | none => rw [hd] at h; simp at h
        | some dv =>
          rw [hd] at h
          simp only [Option.map_some'] at h
          injection h with h
          rw [← h]
          refine mapUpdate_forall ValuesNE i _ { values := some [] } ?_ ?_ st.cmap hinv
          · intro pc _ vs hvs
            injection hvs with hvs
            rw [← hvs]
            intro hnil
            exact splitAmpAmp_ne_nil dv (List.append_eq_nil.mp hnil).2
          · intro vs hvs
            injection hvs with hvs
            rw [← hvs]
            intro hnil
            exact splitAmpAmp_ne_nil dv (List.append_eq_nil.mp hnil).2

theorem decodeFold_valuesNE :
    ∀ (params : List (JStr × JStr)) (st0 st : DecState),
      (∀ e ∈ st0.cmap, ValuesNE e.2) → params.foldlM stepFn st0 = some st →
      ∀ e ∈ st.cmap, ValuesNE e.2 := by
  intro params
  induction params with
  | nil =>
    intro st0 st hinv h
    injection h with h
    rw [← h]
    exact hinv
  | cons p rest ih =>
    intro st0 st hinv h
    rw [List.foldlM_cons] at h
    cases hstep : stepFn st0 p with
    | none => rw [hstep] at h; simp at h
    | some st1 =>
      rw [hstep] at h
      simp only [Option.bind_eq_bind, Option.some_bind] at h
      refine ih st1 st ?_ h
      rw [show stepFn st0 p = decodeStep st0 p.1 p.2 from rfl, decodeStep] at hstep
      cases hcs : critStep st0 p.1 p.2 with
      | none => rw [hcs] at hstep; simp at hstep
      | some st2 =>
        rw [hcs] at hstep
        simp only [Option.map_some'] at hstep
        injection hstep with hstep
        rw [← hstep, applySelects_cmap]
        exact critStep_valuesNE st0 p.1 p.2 st2 hinv hcs

theorem matureOne_inv (pc : PartialCrit) (c : Criteria) (h : matureOne pc = some c) :
    c.key ≠ [] ∧ c.operation ≠ [] ∧ pc.values = some c.values := by
  rcases hpk : pc.key with _ | k
  · rw [matureOne, hpk] at h; simp at h
  · rcases hpo : pc.operation with _ | op
    · rw [matureOne, hpk, hpo] at h; simp at h
    · rcases hpv : pc.values with _ | vs
      · rw [matureOne, hpk, hpo, hpv] at h; simp at h
      · rw [matureOne, hpk, hpo, hpv] at h
        have h' : (if !k.isEmpty && !op.isEmpty then some (Criteria.mk k op vs) else none)
            = some c := h
        by_cases hcond : (!k.isEmpty && !op.isEmpty) = true
        · rw [if_pos hcond] at h'
          injection h' with h''
          rw [← h'']
          simp only [Bool.and_eq_true, Bool.not_eq_true'] at hcond
          exact ⟨ne_nil_of_isEmpty_false hcond.1, ne_nil_of_isEmpty_false hcond.2, rfl⟩
        · rw [if_neg hcond] at h'
          cases h'

/-- C7: a criterion is materialized only with a non-empty key, non-empty
operation and non-empty values; a stray `operation2=EQUAL` with no `key2` or
`values2` yields zero criteria and decoding returns normally. -/
theorem c7_partial_fragments :
    (∀ (s : JStr) (q : DynamicQuery), fromQueryString s = some q →
      ∀ c ∈ q.criteria, c.key ≠ [] ∧ c.operation ≠ [] ∧ c.values ≠ []) ∧
    fromQueryString (jstr "operation2=EQUAL") = some { criteria := [] } := by
  constructor
  · intro s q h c hc
    obtain ⟨_, _, st, hst, hcrit⟩ := fromQueryString_fields s q h
    rw [hcrit, maturedCriteria, List.mem_filterMap] at hc
    obtain ⟨e, he, hme⟩ := hc
    have hinv := decodeFold_valuesNE (parseParams s) initState st
      (by intro e he; simp [initState] at he) hst e he
    obtain ⟨hkey, hop, hvals⟩ := matureOne_inv e.2 c hme
    exact ⟨hkey, hop, hinv c.values hvals⟩
  · decide

/-- C7, witness: a complete fragment set decodes into one well-formed
criterion, on which the non-emptiness guarantees hold. -/
theorem c7_partial_fragments_witness :
    fromQueryString (jstr "key0=a&operation0=EQUAL&values0=v") =
      some { criteria := [⟨jstr "a", jstr "EQUAL", [jstr "v"]⟩] } ∧
    ∀ c ∈ ({ criteria := [⟨jstr "a", jstr "EQUAL", [jstr "v"]⟩] } : DynamicQuery).criteria,
      c.key ≠ [] ∧ c.operation ≠ [] ∧ c.values ≠ [] :=
  ⟨by decide,
   c7_partial_fragments.1 (jstr "key0=a&operation0=EQUAL&values0=v")
     { criteria := [⟨jstr "a", jstr "EQUAL", [jstr "v"]⟩] } (by decide)⟩

theorem mapUpdate_keys (i : Nat) (f : PartialCrit → PartialCrit) (init : PartialCrit) :
    ∀ m : List (Nat × PartialCrit),
      (mapUpdate m i f init).map Prod.fst = dedupAppend (m.map Prod.fst) i := by
  intro m
  induction m with
  | nil => simp [mapUpdate, dedupAppend]
  | cons jq rest ih =>
    obtain ⟨j, q⟩ := jq
    rw [mapUpdate]
    by_cases hj : j = i
    · subst hj
      rw [if_pos rfl, dedupAppend, if_pos (by simp)]
      simp
    · rw [if_neg hj]
      simp only [List.map_cons]
      rw [ih, dedupAppend, dedupAppend]
      have hcc : ((j :: rest.map Prod.fst).contains i) = ((rest.map Prod.fst).contains i) := by
        rw [List.contains_cons,
          show (i == j) = false from beq_eq_false_iff_ne.mpr (Ne.symm hj), Bool.false_or]
      rw [hcc]
      by_cases hc : ((rest.map Prod.fst).contains i) = true
      · rw [if_pos hc, if_pos hc]
      · rw [if_neg hc, if_neg hc]
        simp

theorem stepFn_keys (st0 : DecState) (p : JStr × JStr) (st1 : DecState)
    (h : stepFn st0 p = some st1) :
    (critIdxOf p.1 = none → st1.cmap.map Prod.fst = st0.cmap.map Prod.fst) ∧
    (∀ i, critIdxOf p.1 = some i →
      st1.cmap.map Prod.fst = dedupAppend (st0.cmap.map Prod.fst) i) := by
  rw [show stepFn st0 p = decodeStep st0 p.1 p.2 from rfl, decodeStep] at h
  cases hcs : critStep st0 p.1 p.2 with
  | none => rw [hcs] at h; simp at h
  | some st2 =>
    rw [hcs] at h
    simp only [Option.map_some'] at h
    injection h with h
    have hc1 : st1.cmap = st2.cmap := by rw [← h, applySelects_cmap]
    rw [critStep] at hcs
    cases hk : matchIdx preKey p.1 with
    | some i =>
      rw [hk] at hcs
      injection hcs with hcs
      have hc2 : st2.cmap = mapUpdate st0.cmap i (fun pc => { pc with key := some p.2 }) {} := by
        rw [← hcs]
      constructor
      · intro hcon
        exact absurd hcon (by simp [critIdxOf, hk])
      · intro i' hci
        simp only [critIdxOf, hk, Option.some.injEq] at hci
        rw [hc1, hc2, mapUpdate_keys, hci]
    | none =>
      rw [hk] at hcs
      cases ho : matchIdx preOperation p.1 with
      | some i =>
        rw [ho] at hcs
        injection hcs with hcs
        have hc2 : st2.cmap =
            mapUpdate st0.cmap i (fun pc => { pc with operation := some p.2 }) {} := by
          rw [← hcs]
        constructor
        · intro hcon
          exact absurd hcon (by simp [critIdxOf, hk, ho])
        · intro i' hci
          simp only [critIdxOf, hk, ho, Option.some.injEq] at hci
          rw [hc1, hc2, mapUpdate_keys, hci]
      | none =>
        rw [ho] at hcs
        cases hv : matchIdx preValues p.1 with
        | some i =>
          rw [hv] at hcs
          cases hd : decodeURIComponent p.2 with
          | none => rw [hd] at hcs; simp at hcs
          | some dv =>
            rw [hd] at hcs
            simp only [Option.map_some'] at hcs
            injection hcs with hcs
            have hc2 : st2.cmap = mapUpdate st0.cmap i
                (fun pc => { pc with values := some (pc.values.getD [] ++ splitAmpAmp dv) })
                { values := some [] } := by
              rw [← hcs]
            constructor
            · intro hcon
              exact absurd hcon (by simp [critIdxOf, hk, ho, hv])
            · intro i' hci
              simp only [critIdxOf, hk, ho, hv, Option.some.injEq] at hci
              rw [hc1, hc2, mapUpdate_keys, hci]
        | none =>
          rw [hv] at hcs
          injection hcs with hcs
          constructor
          · intro _
            rw [hc1, ← hcs]
          · intro i' hci
            exact absurd hci (by simp [critIdxOf, hk, ho, hv])

theorem decodeFold_keys :
    ∀ (params : List (JStr × JStr)) (st0 st : DecState),
      params.foldlM stepFn st0 = some st →
      st.cmap.map Prod.fst =
        (params.filterMap (fun p => critIdxOf p.1)).foldl dedupAppend
          (st0.cmap.map Prod.fst) := by
  intro params
  induction params with
  | nil =>
    intro st0 st h
    injection h with h
    rw [← h]
    rfl
  | cons p rest ih =>
    intro st0 st h
    rw [List.foldlM_cons] at h
    cases hstep : stepFn st0 p with
    | none => rw [hstep] at h; simp at h
    | some st1 =>
      rw [hstep] at h
      simp only [Option.bind_eq_bind, Option.some_bind] at h
      have hkeys := stepFn_keys st0 p st1 hstep
      cases hci : critIdxOf p.1 with
      | none =>
        simp only [List.filterMap_cons, hci]
        rw [ih st1 st h, hkeys.1 hci]
      | some i =>
        simp only [List.filterMap_cons, hci, List.foldl_cons]
        rw [ih st1 st h, hkeys.2 i hci]

/-- C5 (amended): the decoded criteria map — and hence the criteria array,
which iterates it — is ordered by first occurrence of each criterion index
among the `key{i}`/`operation{i}`/`values{i}` parameters (JavaScript `Map`
insertion order), not by ascending numeric index. -/
theorem c5_order_amended :
    ∀ (params : List (JStr × JStr)) (st : DecState), decodeFold params = some st →
      st.cmap.map Prod.fst = firstOccurrences (params.filterMap (fun p => critIdxOf p.1)) := by
  intro params st h
  have hk := decodeFold_keys params initState st h
  rw [hk]
  rfl

/-- C5, witness: index-10 fragments arriving before index-2 fragments put
index 10 first in the map (and `[10, 2]` is not ascending). -/
theorem c5_order_amended_witness :
    decodeFold (parseParams
        (jstr "key10=a&operation10=EQUAL&values10=x&key2=b&operation2=EQUAL&values2=y")) =
      some ⟨[(10, ⟨some (jstr "a"), some (jstr "EQUAL"), some [jstr "x"]⟩),
             (2, ⟨some (jstr "b"), some (jstr "EQUAL"), some [jstr "y"]⟩)], [], [], [], []⟩ ∧
    (⟨[(10, ⟨some (jstr "a"), some (jstr "EQUAL"), some [jstr "x"]⟩),
       (2, ⟨some (jstr "b"), some (jstr "EQUAL"), some [jstr "y"]⟩)], [], [], [], []⟩ :
        DecState).cmap.map Prod.fst =
      firstOccurrences ((parseParams
        (jstr "key10=a&operation10=EQUAL&values10=x&key2=b&operation2=EQUAL&values2=y")).filterMap
          (fun p => critIdxOf p.1)) ∧
    ([10, 2] : List Nat) ≠ [2, 10] :=
  ⟨by decide,
   c5_order_amended _
     ⟨[(10, ⟨some (jstr "a"), some (jstr "EQUAL"), some [jstr "x"]⟩),
       (2, ⟨some (jstr "b"), some (jstr "EQUAL"), some [jstr "y"]⟩)], [], [], [], []⟩
     (by decide),
   by decide⟩

theorem filter_false_nil {B : Type} (f : B → Bool) :
    ∀ l : List B, (∀ a ∈ l, f a = false) → l.filter f = [] := by
  intro l
  induction l with
  | nil => intro _; rfl
  | cons a rest ih =>
    intro h
    have hfa := h a (by simp)
    simp only [List.filter_cons, hfa, Bool.false_eq_true, if_false]
    exact ih (fun x hx => h x (by simp [hx]))

theorem filter_true_id {B : Type} (f : B → Bool) :
    ∀ l : List B, (∀ a ∈ l, f a = true) → l.filter f = l := by
  intro l
  induction l with
  | nil => intro _; rfl
  | cons a rest ih =>
    intro h
    have hfa := h a (by simp)
    simp only [List.filter_cons, hfa, if_true]
    rw [ih (fun x hx => h x (by simp [hx]))]

theorem map_snd_pair (n : JStr) : ∀ l : List JStr, (l.map (fun v => (n, v))).map Prod.snd = l := by
  intro l
  induction l with
  | nil => rfl
  | cons a rest ih => simp only [List.map_cons, ih]

theorem idxFrom_get? {A : Type} :
    ∀ (l : List A) (i0 i : Nat) (a : A), l.get? i = some a → (i0 + i, a) ∈ idxFrom i0 l := by
  intro l
  induction l with
  | nil => intro i0 i a h; simp at h
  | cons x rest ih =>
    intro i0 i a h
    cases i with
    | zero =>
      rw [List.get?_cons_zero] at h
      injection h with h
      rw [idxFrom]
      exact List.mem_cons.mpr (Or.inl (by rw [← h, Nat.add_zero]))
    | succ i' =>
      rw [List.get?_cons_succ] at h
      have hmem := ih (i0 + 1) i' a h
      rw [idxFrom]
      refine List.mem_cons.mpr (Or.inr ?_)
      have heq : i0 + 1 + i' = i0 + (i' + 1) := by omega
      rw [← heq]
      exact hmem

theorem idxFrom_mem_ge {A : Type} :
    ∀ (l : List A) (i0 : Nat) (x : Nat × A), x ∈ idxFrom i0 l → i0 ≤ x.1 := by
  intro l
  induction l with
  | nil => intro i0 x h; simp [idxFrom] at h
  | cons a rest ih =>
    intro i0 x h
    rw [idxFrom] at h
    rcases List.mem_cons.mp h with h1 | h2
    · rw [h1]
    · exact le_trans (by omega) (ih (i0 + 1) x h2)

theorem critParamsFrom_cons (i0 : Nat) (c0 : Criteria) (rest : List Criteria) :
    critParamsFrom i0 (c0 :: rest) =
      ((preKey ++ natRepr i0, c0.key) :: (preOperation ++ natRepr i0, c0.operation) ::
        c0.values.map (fun v => (preValues ++ natRepr i0, v))) ++ critParamsFrom (i0 + 1) rest := by
  rw [critParamsFrom, idxFrom, List.flatMap_cons]
  rfl

theorem critParamsFrom_names_idx :
    ∀ (cs : List Criteria) (i0 : Nat) (p : JStr × JStr), p ∈ critParamsFrom i0 cs →
      ∃ j, i0 ≤ j ∧ (p.1 = preKey ++ natRepr j ∨ p.1 = preOperation ++ natRepr j ∨
        p.1 = preValues ++ natRepr j) := by
  intro cs i0 p hp
  rw [critParamsFrom, List.mem_flatMap] at hp
  obtain ⟨x, hx, hpx⟩ := hp
  have hge := idxFrom_mem_ge cs i0 x hx
  rw [List.mem_cons, List.mem_cons] at hpx
  rcases hpx with rfl | rfl | hpx
  · exact ⟨x.1, hge, Or.inl rfl⟩
  · exact ⟨x.1, hge, Or.inr (Or.inl rfl)⟩
  · rw [List.mem_map] at hpx
    obtain ⟨v, _, rfl⟩ := hpx
    exact ⟨x.1, hge, Or.inr (Or.inr rfl)⟩

theorem preKey_app_head (t : JStr) : (preKey ++ t).head? = some 'k' :=
  head_of_append_jstr "key" 'k' rfl t

theorem preOperation_app_head (t : JStr) : (preOperation ++ t).head? = some 'o' :=
  head_of_append_jstr "operation" 'o' rfl t

theorem preValues_app_head (t : JStr) : (preValues ++ t).head? = some 'v' :=
  head_of_append_jstr "values" 'v' rfl t

theorem natRepr_inj (a b : Nat) (h : natRepr a = natRepr b) : a = b := by
  have := congrArg digitsVal h
  rwa [digitsVal_natRepr, digitsVal_natRepr] at this

theorem beq_key_values (j t : Nat) : ((preKey ++ natRepr j) == (preValues ++ natRepr t)) = false :=
  beq_eq_false_iff_ne.mpr (ne_of_head_ne _ _ (by
    rw [preKey_app_head, preValues_app_head]; decide))

theorem beq_op_values (j t : Nat) :
    ((preOperation ++ natRepr j) == (preValues ++ natRepr t)) = false :=
  beq_eq_false_iff_ne.mpr (ne_of_head_ne _ _ (by
    rw [preOperation_app_head, preValues_app_head]; decide))

theorem beq_values_values_ne (j t : Nat) (h : j ≠ t) :
    ((preValues ++ natRepr j) == (preValues ++ natRepr t)) = false := by
  apply beq_eq_false_iff_ne.mpr
  intro he
  exact h (natRepr_inj j t (List.append_cancel_left he))

theorem filter_values_critParamsFrom :
    ∀ (cs : List Criteria) (i0 i : Nat) (c : Criteria), cs.get? i = some c →
      ((critParamsFrom i0 cs).filter (fun p => p.1 == preValues ++ natRepr (i0 + i))).map
        Prod.snd = c.values := by
  intro cs
  induction cs with
  | nil => intro i0 i c h; simp at h
  | cons c0 rest ih =>
    intro i0 i c h
    rw [critParamsFrom_cons, List.filter_append, List.map_append]
    cases i with
    | zero =>
      rw [List.get?_cons_zero] at h
      injection h with h
      have htail : (critParamsFrom (i0 + 1) rest).filter
          (fun p => p.1 == preValues ++ natRepr (i0 + 0)) = [] := by
        apply filter_false_nil
        intro p hp
        obtain ⟨j, hj, hcase⟩ := critParamsFrom_names_idx rest (i0 + 1) p hp
        rcases hcase with he | he | he
        · rw [he]; exact beq_key_values j (i0 + 0)
        · rw [he]; exact beq_op_values j (i0 + 0)
        · rw [he]; exact beq_values_values_ne j (i0 + 0) (by omega)
      rw [htail]
      have hhead : ((preKey ++ natRepr i0, c0.key) :: (preOperation ++ natRepr i0, c0.operation) ::
          c0.values.map (fun v => (preValues ++ natRepr i0, v))).filter
            (fun p => p.1 == preValues ++ natRepr (i0 + 0)) =
          c0.values.map (fun v => (preValues ++ natRepr i0, v)) := by
        rw [List.filter_cons, List.filter_cons]
        rw [show (((preKey ++ natRepr i0, c0.key) : JStr × JStr).1 ==
            preValues ++ natRepr (i0 + 0)) = false from beq_key_values i0 (i0 + 0)]
        rw [show (((preOperation ++ natRepr i0, c0.operation) : JStr × JStr).1 ==
            preValues ++ natRepr (i0 + 0)) = false from beq_op_values i0 (i0 + 0)]
        simp only [Bool.false_eq_true, if_false]
        apply filter_true_id
        intro p hp
        rw [List.mem_map] at hp
        obtain ⟨v, _, rfl⟩ := hp
        exact beq_iff_eq.mpr rfl
      rw [hhead, map_snd_pair, ← h]
      simp
    | succ i' =>
      rw [List.get?_cons_succ] at h
      have hhead : ((preKey ++ natRepr i0, c0.key) :: (preOperation ++ natRepr i0, c0.operation) ::
          c0.values.map (fun v => (preValues ++ natRepr i0, v))).filter
            (fun p => p.1 == preValues ++ natRepr (i0 + (i' + 1))) = [] := by
        apply filter_false_nil
        intro p hp
        rw [List.mem_cons, List.mem_cons] at hp
        rcases hp with rfl | rfl | hp
        · exact beq_key_values i0 (i0 + (i' + 1))
        · exact beq_op_values i0 (i0 + (i' + 1))
        · rw [List.mem_map] at hp
          obtain ⟨v, _, rfl⟩ := hp
          exact beq_values_values_ne i0 (i0 + (i' + 1)) (by omega)
      rw [hhead]
      have hrec := ih (i0 + 1) i' c h
      have heq : i0 + 1 + i' = i0 + (i' + 1) := by omega
      rw [heq] at hrec
      rw [hrec]
      rfl

theorem tailBlocks_not_values (q : DynamicQuery) (t : Nat) :
    ∀ p ∈ (optArrParams (jstr "select") q.select ++
        (optArrParams (jstr "selectAs") q.selectAs ++ (optArrParams (jstr "orderBy") q.orderBy ++
          (optArrParams (jstr "orderByDirection") q.orderByDirection ++
            (numParam (jstr "page") q.page ++ numParam (jstr "pageSize") q.pageSize))))),
      (p.1 == preValues ++ natRepr t) = false := by
  intro p hp
  apply beq_eq_false_iff_ne.mpr
  refine ne_of_head_ne _ _ ?_
  rw [preValues_app_head]
  simp only [List.mem_append] at hp
  rcases hp with hp | hp | hp | hp | hp | hp
  · cases hqs : q.select with
    | none => rw [hqs] at hp; simp [optArrParams] at hp
    | some l =>
      rw [hqs, optArrParams_some] at hp
      by_cases hl : 0 < l.length
      · rw [if_pos hl] at hp
        obtain ⟨t2, ht⟩ := optArrFrom_names _ 0 l p hp
        rw [ht, head_of_append_jstr "select" 's' rfl]
        decide
      · rw [if_neg hl] at hp; simp at hp
  · cases hqs : q.selectAs with
    | none => rw [hqs] at hp; simp [optArrParams] at hp
    | some l =>
      rw [hqs, optArrParams_some] at hp
      by_cases hl : 0 < l.length
      · rw [if_pos hl] at hp
        obtain ⟨t2, ht⟩ := optArrFrom_names _ 0 l p hp
        rw [ht, head_of_append_jstr "selectAs" 's' rfl]
        decide
      · rw [if_neg hl] at hp; simp at hp
  · cases hqs : q.orderBy with
    | none => rw [hqs] at hp; simp [optArrParams] at hp
    | some l =>
      rw [hqs, optArrParams_some] at hp
      by_cases hl : 0 < l.length
      · rw [if_pos hl] at hp
        obtain ⟨t2, ht⟩ := optArrFrom_names _ 0 l p hp
        rw [ht, head_of_append_jstr "orderBy" 'o' rfl]
        decide
      · rw [if_neg hl] at hp; simp at hp
  · cases hqs : q.orderByDirection with
    | none => rw [hqs] at hp; simp [optArrParams] at hp
    | some l =>
      rw [hqs, optArrParams_some] at hp
      by_cases hl : 0 < l.length
      · rw [if_pos hl] at hp
        obtain ⟨t2, ht⟩ := optArrFrom_names _ 0 l p hp
        rw [ht, head_of_append_jstr "orderByDirection" 'o' rfl]
        decide
      · rw [if_neg hl] at hp; simp at hp
  · cases hqp : q.page with
    | none => rw [hqp] at hp; simp [numParam] at hp
    | some v =>
      rw [hqp] at hp
      rw [show numParam (jstr "page") (some v) = [(jstr "page", numToStr v)] from rfl,
        List.mem_singleton] at hp
      rw [hp]
      exact (by decide : (jstr "page").head? ≠ some 'v')
  · cases hqp : q.pageSize with
    | none => rw [hqp] at hp; simp [numParam] at hp
    | some v =>
      rw [hqp] at hp
      rw [show numParam (jstr "pageSize") (some v) = [(jstr "pageSize", numToStr v)] from rfl,
        List.mem_singleton] at hp
      rw [hp]
      exact (by decide : (jstr "pageSize").head? ≠ some 'v')

theorem critParamsFrom_mem (cs : List Criteria) (i0 i : Nat) (c : Criteria)
    (hm : (i, c) ∈ idxFrom i0 cs) :
    (preKey ++ natRepr i, c.key) ∈ critParamsFrom i0 cs ∧
    (preOperation ++ natRepr i, c.operation) ∈ critParamsFrom i0 cs := by
  rw [critParamsFrom]
  exact ⟨List.mem_flatMap.mpr ⟨(i, c), hm, by simp⟩,
         List.mem_flatMap.mpr ⟨(i, c), hm, by simp⟩⟩

/-- C2 (amended): `toQueryString` emits `key{i}` and `operation{i}` for
every criterion — including one with empty `values`, whose `values{i}`
pairs alone are absent — and `i` is the criterion's original array
position (indices are not renumbered). -/
theorem c2_empty_values_emission :
    ∀ (q : DynamicQuery) (i : Nat) (c : Criteria), q.criteria.get? i = some c →
      (preKey ++ natRepr i, c.key) ∈ toQueryParams q ∧
      (preOperation ++ natRepr i, c.operation) ∈ toQueryParams q ∧
      ((toQueryParams q).filter (fun p => p.1 == preValues ++ natRepr i)).map Prod.snd
        = c.values ∧
      toQueryString q = serializeParams (toQueryParams q) := by
  intro q i c h
  have hmem : (i, c) ∈ idxFrom 0 q.criteria := by
    have := idxFrom_get? q.criteria 0 i c h
    rwa [Nat.zero_add] at this
  have hkv := critParamsFrom_mem q.criteria 0 i c hmem
  refine ⟨?_, ?_, ?_, rfl⟩
  · rw [toQueryParams_assoc]
    exact List.mem_append_left _ (by rw [critParams_eq_from]; exact hkv.1)
  · rw [toQueryParams_assoc]
    exact List.mem_append_left _ (by rw [critParams_eq_from]; exact hkv.2)
  · rw [toQueryParams_assoc, List.filter_append, List.map_append]
    have h1 := filter_values_critParamsFrom q.criteria 0 i c h
    rw [Nat.zero_add] at h1
    rw [critParams_eq_from, h1]
    rw [filter_false_nil _ _ (tailBlocks_not_values q i)]
    simp

/-- C2, witness: a query whose first criterion has empty `values` still
emits `key0` and `operation0`, with no `values0` pair. -/
theorem c2_empty_values_emission_witness :
    ({ criteria := [⟨jstr "a", jstr "EQUAL", []⟩] } : DynamicQuery).criteria.get? 0 =
      some ⟨jstr "a", jstr "EQUAL", []⟩ ∧
    ((preKey ++ natRepr 0, (⟨jstr "a", jstr "EQUAL", []⟩ : Criteria).key) ∈
        toQueryParams { criteria := [⟨jstr "a", jstr "EQUAL", []⟩] } ∧
      (preOperation ++ natRepr 0, (⟨jstr "a", jstr "EQUAL", []⟩ : Criteria).operation) ∈
        toQueryParams { criteria := [⟨jstr "a", jstr "EQUAL", []⟩] } ∧
      ((toQueryParams { criteria := [⟨jstr "a", jstr "EQUAL", []⟩] }).filter
          (fun p => p.1 == preValues ++ natRepr 0)).map Prod.snd =
        (⟨jstr "a", jstr "EQUAL", []⟩ : Criteria).values ∧
      toQueryString { criteria := [⟨jstr "a", jstr "EQUAL", []⟩] } =
        serializeParams (toQueryParams { criteria := [⟨jstr "a", jstr "EQUAL", []⟩] })) :=
  ⟨by decide,
   c2_empty_values_emission { criteria := [⟨jstr "a", jstr "EQUAL", []⟩] } 0
     ⟨jstr "a", jstr "EQUAL", []⟩ (by decide)⟩

theorem critParamsFrom_eq_spec :
    ∀ (cs : List Criteria) (i0 : Nat), critParamsFrom i0 cs = specCritPairs cs i0 := by
  intro cs
  induction cs with
  | nil => intro i0; rfl
  | cons c0 rest ih =>
    intro i0
    have h1 : critParamsFrom i0 (c0 :: rest) =
        (preKey ++ natRepr i0, c0.key) :: (preOperation ++ natRepr i0, c0.operation) ::
          (c0.values.map (fun v => (preValues ++ natRepr i0, v)) ++
            critParamsFrom (i0 + 1) rest) := rfl
    have h2 : specCritPairs (c0 :: rest) i0 =
        (jstr "key" ++ natRepr i0, c0.key) :: (jstr "operation" ++ natRepr i0, c0.operation) ::
          (c0.values.map (fun v => (jstr "values" ++ natRepr i0, v)) ++
            specCritPairs rest (i0 + 1)) := rfl
    rw [h1, h2, ih]
    rfl

theorem optArrFrom_eq_spec (pre : JStr) :
    ∀ (l : List (Option JStr)) (i0 : Nat), optArrFrom pre i0 l = specArrPairs pre i0 l := by
  intro l
  induction l with
  | nil => intro i0; rfl
  | cons o rest ih =>
    intro i0
    cases o with
    | none =>
      have h1 : optArrFrom pre i0 (none :: rest) = optArrFrom pre (i0 + 1) rest := rfl
      have h2 : specArrPairs pre i0 (none :: rest) = specArrPairs pre (i0 + 1) rest := rfl
      rw [h1, h2, ih]
    | some v =>
      have h1 : optArrFrom pre i0 (some v :: rest) =
          (pre ++ natRepr i0, v) :: optArrFrom pre (i0 + 1) rest := rfl
      have h2 : specArrPairs pre i0 (some v :: rest) =
          (pre ++ natRepr i0, v) :: specArrPairs pre (i0 + 1) rest := rfl
      rw [h1, h2, ih]

theorem optArrParams_eq_spec (pre : JStr) (o : Option (List (Option JStr))) :
    optArrParams pre o = specOptArr pre o := by
  cases o with
  | none => rfl
  | some l =>
    have h2 : specOptArr pre (some l) = if l.isEmpty then [] else specArrPairs pre 0 l := rfl
    rw [optArrParams_some, h2]
    by_cases hl : 0 < l.length
    · have hne : ¬ (l.isEmpty = true) := by
        cases l with
        | nil => simp at hl
        | cons a r => simp
      rw [if_pos hl, if_neg hne, optArrFrom_eq_spec]
    · have hy : l.isEmpty = true := by
        cases l with
        | nil => rfl
        | cons a r => exact absurd (by simp) hl
      rw [if_neg hl, if_pos hy]

theorem toQueryParams_eq_spec (q : DynamicQuery) : toQueryParams q = specEmission q := by
  rw [toQueryParams, specEmission, critParams_eq_from, critParamsFrom_eq_spec,
    optArrParams_eq_spec, optArrParams_eq_spec, optArrParams_eq_spec, optArrParams_eq_spec]
  rfl

/-- C9: the encoded string is the `&`-joined concatenation of the
serialized `name=value` pairs in exactly the claimed fixed order — per
criterion `key{i}`, `operation{i}`, repeated `values{i}`; then the
`select`, `selectAs`, `orderBy`, `orderByDirection` blocks; then `page`
and `pageSize` when defined — with absent or empty optional fields
omitted entirely. -/
theorem c9_emission_order :
    ∀ q : DynamicQuery,
      toQueryString q = asciiToStr (joinSepByte 0x26 ((specEmission q).map serPair)) := by
  intro q
  rw [show toQueryString q = serializeParams (toQueryParams q) from rfl,
    show serializeParams (toQueryParams q) =
      asciiToStr (joinSepByte 0x26 ((toQueryParams q).map serPair)) from rfl,
    toQueryParams_eq_spec]

end DQ
